import Mathlib

/-!
Verification of the mergeable-heap backends of the 20407 data-structures
repository (`src/lazy.h`, the current lazy binomial-forest backend, and
`src/heap.h`, the older backend revision), against the repository's
natural-language specification.

The C++ nodes form a left-child/right-sibling forest.  We model a node as a
key together with its stored degree field and its list of children (first
child at the head of the list; the sibling chain of a child is the tail of
that list).  Each node also carries the identity of its allocation (`id`),
which models the C++ pointer value: `heap.h` compares node pointers
(`min == min_node` in `extract_min`), so identity is part of the observable
state there.  The lazy backend never compares pointers, and ignores ids.

Keys are `Int`: the repository instantiates the templates at `int`, and the
code only ever compares keys with `<` / `>` (it never performs arithmetic on
them), so mathematical integers are a faithful model.
-/

namespace Heap20407

/-- A heap node: key, allocation identity, stored degree field, children
(first child first, per the left-child/right-sibling encoding). -/
inductive Node : Type where
  | mk (key : Int) (id : Nat) (degree : Nat) (children : List Node)
deriving Repr

def Node.key : Node → Int
  | .mk k _ _ _ => k

def Node.id : Node → Nat
  | .mk _ i _ _ => i

def Node.degree : Node → Nat
  | .mk _ _ d _ => d

def Node.children : Node → List Node
  | .mk _ _ _ cs => cs

mutual

/-- All `(id, key)` pairs stored in the subtree rooted at a node. -/
def Node.entries : Node → List (Nat × Int)
  | .mk k i _ cs => (i, k) :: Node.entriesForest cs

/-- All `(id, key)` pairs stored in a list of subtrees. -/
def Node.entriesForest : List Node → List (Nat × Int)
  | [] => []
  | c :: cs => Node.entries c ++ Node.entriesForest cs

end

/-- All keys stored in the subtree rooted at a node. -/
def Node.keys (n : Node) : List Int :=
  n.entries.map Prod.snd

/-- Heap order: each node's key is no larger than all keys below it. -/
inductive HeapOrd : Node → Prop where
  | mk (k : Int) (i d : Nat) (cs : List Node) :
      (∀ c ∈ cs, k ≤ c.key) → (∀ c ∈ cs, HeapOrd c) →
      HeapOrd (.mk k i d cs)

/-- Binomial-tree shape: the stored degree equals the number of children,
and the children, first to last, are binomial trees of degrees
`d-1, d-2, ..., 0`. -/
inductive IsBinomial : Node → Prop where
  | mk (k : Int) (i d : Nat) (cs : List Node) :
      d = cs.length → cs.map Node.degree = (List.range d).reverse →
      (∀ c ∈ cs, IsBinomial c) →
      IsBinomial (.mk k i d cs)

/-- A well-formed tree of the forest: binomial shape plus heap order. -/
def Good (n : Node) : Prop := IsBinomial n ∧ HeapOrd n

/-- `link` (lazy.h lines 411-422, heap.h lines 451-462): the tree with the
larger key becomes the new first child of the other (its sibling pointer is
set to the winner's previous first child), and the winner's degree grows by
one.  On equal keys the first argument wins (`tree1->key > tree2->key` is
false, so no swap happens). -/
def link (t1 t2 : Node) : Node :=
  if t1.key > t2.key then
    Node.mk t2.key t2.id (t2.degree + 1) (t1 :: t2.children)
  else
    Node.mk t1.key t1.id (t1.degree + 1) (t2 :: t1.children)

/-- The root-list scan shared by `update_min` and `remove_min` in both
backends: walk the sibling chain keeping the current best, replacing it only
on a strictly smaller key.  The result is the first root attaining the
minimal key. -/
def scanMin (best : Node) : List Node → Node
  | [] => best
  | c :: rest => scanMin (if c.key < best.key then c else best) rest

/-- Splice the first root with the given key out of the root list.  This is
how `remove_min` (lazy.h lines 356-395, heap.h lines 396-435) unlinks
`min_node`: the scan stops at the first root attaining the minimal key, and
the splice rewires `head`/`tail`/the predecessor's sibling pointer, which on
the list model is exactly removal of that first occurrence. -/
def eraseFirstKey (x : Int) : List Node → List Node
  | [] => []
  | a :: l => if a.key = x then l else a :: eraseFirstKey x l

/-- Shared `remove_min` logic: `nullptr` on an empty root list, otherwise
the first root attaining the minimal key together with the spliced list. -/
def removeMinRoots : List Node → Option (Node × List Node)
  | [] => none
  | a :: rest =>
      let m := scanMin a rest
      some (m, eraseFirstKey m.key (a :: rest))

/-- The linking loop of `consolidate` for one bucket (lazy.h lines 486-494,
heap.h lines 527-535): while the bucket holds at least two trees, pop the
last two (`tree1` the very last, `tree2` the one before it), link them, and
emit the result as a carry for the next bucket.  The argument is the bucket
read from the back (last pushed first); the returned pair is (the tree left
in the bucket, if any — necessarily the bucket's first element — and the
carries in the order they were produced). -/
def linkRun : List Node → List Node × List Node
  | [] => ([], [])
  | [x] => ([x], [])
  | t1 :: t2 :: rest =>
      let p := linkRun rest
      (p.1, link t1 t2 :: p.2)

/-- The bucket-processing loop of `consolidate` (lazy.h lines 479-495,
heap.h lines 520-536), in increasing bucket order.  Each bucket holds its
`count_sort` contents followed by the carries pushed while processing the
previous bucket; the linking loop pops from the back.  A carry produced at
the last bucket would be pushed to `count[i + 1]` with `i + 1 == count.size()`
— an out-of-bounds write, modelled as `none`. -/
def consolidateLoop : List (List Node) → List Node → Option (List (List Node))
  | [], carry => if carry.isEmpty then some [] else none
  | b :: bs, carry =>
      let p := linkRun (b ++ carry).reverse
      match consolidateLoop bs p.2 with
      | none => none
      | some rest => some (p.1 :: rest)

/-- `count_sort` (lazy.h lines 437-452, heap.h lines 477-493): allocate
`ceil(log2(size)) + 1` empty buckets and push every root onto the bucket of
its degree.  The C++ indexes `count[degree]` without a bound check; a degree
not below the bucket count is an out-of-bounds access, modelled as `none`.
`std::ceil(std::log2(size))` on the sizes in scope is exactly `Nat.clog 2 size`. -/
def count_sort (roots : List Node) (size : Nat) : Option (List (List Node)) :=
  go roots (List.replicate (Nat.clog 2 size + 1) [])
where
  go : List Node → List (List Node) → Option (List (List Node))
    | [], buckets => some buckets
    | n :: rest, buckets =>
        if n.degree < buckets.length then
          go rest (buckets.set n.degree (buckets.getD n.degree [] ++ [n]))
        else none

/-- `consolidate` (lazy.h lines 470-516, heap.h lines 511-556): return
unchanged on an empty root list, otherwise count-sort the roots by degree,
run the linking loop, and rebuild the root list from the front tree of each
non-empty bucket, in increasing degree order. -/
def consolidateRoots (roots : List Node) (size : Nat) : Option (List Node) :=
  if roots.isEmpty then some roots
  else
    match count_sort roots size with
    | none => none
    | some buckets =>
        match consolidateLoop buckets [] with
        | none => none
        | some buckets2 => some (buckets2.filterMap List.head?)

/-! ### The lazy backend (`src/lazy.h`, class `LazyBinomialHeap`) -/

/-- The private heap state of `lazy.h`: the root list from `head` to
`tail`, the cached `min` pointer, and the stored `size`.  The cached pointer
is modelled by the node it designates; the lazy backend only ever reads
`min->key` and compares `min` against `nullptr`, and keys are immutable, so
the node value is a faithful model of the pointer. -/
structure LazyBinomialHeap where
  roots : List Node
  min : Option Node
  size : Nat
deriving Repr

namespace LazyBinomialHeap

/-- The default constructor (lazy.h line 99). -/
def empty : LazyBinomialHeap := ⟨[], none, 0⟩

/-- `insert` (lazy.h lines 126-143): allocate a degree-0 singleton; if
`++size == 1` the heap was empty and the node becomes `head`, `tail` and
`min`; otherwise append it at `tail` and update `min` on a strictly smaller
key.  (In the non-empty branch the C++ dereferences `min` unguarded; a state
with `size ≥ 1` but a null `min` would be undefined behaviour — such states
are unreachable, and the model keeps `min` unchanged there.)  New nodes are
allocated at identity 0: the lazy backend never inspects identities. -/
def insert (h : LazyBinomialHeap) (key : Int) : LazyBinomialHeap :=
  let node : Node := .mk key 0 0 []
  if h.size + 1 = 1 then
    ⟨[node], some node, h.size + 1⟩
  else
    ⟨h.roots ++ [node],
     (match h.min with
      | some m => if key < m.key then some node else some m
      | none => none),
     h.size + 1⟩

/-- `minimum` (lazy.h lines 157-164). -/
def minimum (h : LazyBinomialHeap) : Option Int :=
  h.min.map Node.key

/-- `merge` (lazy.h lines 241-266): keep the smaller cached minimum (the
other heap's only on a strictly smaller key, and only when present),
concatenate the other root list after `tail`, add the sizes, and clear the
other heap's `head`, `tail` and `size`.  The C++ does *not* clear the other
heap's `min` pointer.  Returns (the target heap, the merged-away heap). -/
def merge (a b : LazyBinomialHeap) : LazyBinomialHeap × LazyBinomialHeap :=
  let newMin : Option Node :=
    match a.min, b.min with
    | none, bm => bm
    | some am, some bm => if bm.key < am.key then some bm else some am
    | some am, none => some am
  let newRoots : List Node :=
    if a.roots.isEmpty then b.roots
    else if b.roots.isEmpty then a.roots
    else a.roots ++ b.roots
  (⟨newRoots, newMin, a.size + b.size⟩, ⟨[], b.min, 0⟩)

/-- `remove_min` (lazy.h lines 356-395): `nullptr` on an empty root list;
otherwise splice out the first root attaining the minimal key and decrement
`size`.  The `min` pointer is not touched. -/
def remove_min (h : LazyBinomialHeap) :
    Option (Node × LazyBinomialHeap) :=
  match removeMinRoots h.roots with
  | none => none
  | some (m, rest) => some (m, ⟨rest, h.min, h.size - 1⟩)

/-- `update_min` (lazy.h lines 325-342): rescan the root list for the first
root attaining the minimal key; null when the list is empty. -/
def update_min (h : LazyBinomialHeap) : LazyBinomialHeap :=
  match h.roots with
  | [] => ⟨h.roots, none, h.size⟩
  | a :: rest => ⟨h.roots, some (scanMin a rest), h.size⟩

/-- `consolidate` member (lazy.h lines 470-516). -/
def consolidate (h : LazyBinomialHeap) : Option LazyBinomialHeap :=
  match consolidateRoots h.roots h.size with
  | none => none
  | some rs => some ⟨rs, h.min, h.size⟩

/-- `extract_min` (lazy.h lines 180-223): remove the minimal root
(`nullopt` if there is none), append its child chain at `tail`, consolidate,
rescan for the new minimum, and return the removed key.  `none` (the outer
layer) models the out-of-bounds accesses possible inside `consolidate`. -/
def extract_min (h : LazyBinomialHeap) :
    Option (Option Int × LazyBinomialHeap) :=
  match remove_min h with
  | none => some (none, h)
  | some (m, h1) =>
      let h2 : LazyBinomialHeap := ⟨h1.roots ++ m.children, h1.min, h1.size⟩
      match consolidate h2 with
      | none => none
      | some h3 => some (some m.key, update_min h3)

end LazyBinomialHeap

/-! ### The older backend revision (`src/heap.h`, class `MergeableHeap`) -/

/-- The heap state of `heap.h`.  Its `extract_min` compares the cached
`min` pointer against the removed node (`min == min_node`), so the cached
pointer is modelled by the designated node's identity together with its
(immutable) key. -/
structure MergeableHeap where
  roots : List Node
  min : Option (Nat × Int)
  size : Nat
deriving Repr

namespace MergeableHeap

/-- The default constructor (heap.h line 137). -/
def empty : MergeableHeap := ⟨[], none, 0⟩

/-- `insert` (heap.h lines 206-225): prepend a fresh degree-0 singleton at
`head`, and update `min` when it was null or the new key is strictly
smaller.  `ctr` is the allocator: the new node's identity, fresh by
construction. -/
def insert (ctr : Nat) (h : MergeableHeap) (key : Int) :
    Nat × MergeableHeap :=
  let temp : Node := .mk key ctr 0 []
  let newMin : Option (Nat × Int) :=
    match h.min with
    | none => some (ctr, key)
    | some (i, mk0) => if key < mk0 then some (ctr, key) else some (i, mk0)
  (ctr + 1, ⟨temp :: h.roots, newMin, h.size + 1⟩)

/-- `minimum` (heap.h lines 239-246). -/
def minimum (h : MergeableHeap) : Option Int :=
  h.min.map Prod.snd

/-- `merge` (heap.h lines 324-347): same pointer moves as the lazy
backend's merge; the other heap's `min` is likewise not cleared. -/
def merge (a b : MergeableHeap) : MergeableHeap × MergeableHeap :=
  let newMin : Option (Nat × Int) :=
    match a.min, b.min with
    | none, bm => bm
    | some am, some bm => if bm.2 < am.2 then some bm else some am
    | some am, none => some am
  let newRoots : List Node :=
    if a.roots.isEmpty then b.roots
    else if b.roots.isEmpty then a.roots
    else a.roots ++ b.roots
  (⟨newRoots, newMin, a.size + b.size⟩, ⟨[], b.min, 0⟩)

/-- `remove_min` (heap.h lines 396-435): identical to the lazy backend's. -/
def remove_min (h : MergeableHeap) : Option (Node × MergeableHeap) :=
  match removeMinRoots h.roots with
  | none => none
  | some (m, rest) => some (m, ⟨rest, h.min, h.size - 1⟩)

/-- `update_min` (heap.h lines 365-382). -/
def update_min (h : MergeableHeap) : MergeableHeap :=
  match h.roots with
  | [] => ⟨h.roots, none, h.size⟩
  | a :: rest =>
      let m := scanMin a rest
      ⟨h.roots, some (m.id, m.key), h.size⟩

/-- `extract_min` (heap.h lines 262-306): remove the minimal root, splice
its child chain at `head` (not at `tail` as in lazy.h), consolidate, and
rescan for the minimum *only* when the cached `min` pointer is the removed
node (`min == min_node`); a null `min` compares unequal to the removed node,
so no rescan happens then. -/
def extract_min (h : MergeableHeap) : Option (Option Int × MergeableHeap) :=
  match remove_min h with
  | none => some (none, h)
  | some (m, h1) =>
      let h2 : MergeableHeap := ⟨m.children ++ h1.roots, h1.min, h1.size⟩
      match consolidateRoots h2.roots h2.size with
      | none => none
      | some rs =>
          let h3 : MergeableHeap := ⟨rs, h2.min, h2.size⟩
          let h4 : MergeableHeap :=
            match h3.min with
            | some (i, k) => if i = m.id then update_min h3 else ⟨rs, some (i, k), h2.size⟩
            | none => h3
          some (some m.key, h4)

end MergeableHeap

/-! ### Basic facts about nodes, keys and entries -/

@[simp]
theorem Node.key_mk (k : Int) (i d : Nat) (cs : List Node) :
    (Node.mk k i d cs).key = k := rfl

@[simp]
theorem Node.id_mk (k : Int) (i d : Nat) (cs : List Node) :
    (Node.mk k i d cs).id = i := rfl

@[simp]
theorem Node.degree_mk (k : Int) (i d : Nat) (cs : List Node) :
    (Node.mk k i d cs).degree = d := rfl

@[simp]
theorem Node.children_mk (k : Int) (i d : Nat) (cs : List Node) :
    (Node.mk k i d cs).children = cs := rfl

theorem Node.entriesForest_eq (cs : List Node) :
    Node.entriesForest cs = (cs.map Node.entries).flatten := by
  induction cs with
  | nil => rfl
  | cons c rest ih => rw [Node.entriesForest, ih, List.map_cons, List.flatten_cons]

theorem Node.entries_mk (k : Int) (i d : Nat) (cs : List Node) :
    Node.entries (.mk k i d cs) = (i, k) :: (cs.map Node.entries).flatten := by
  rw [Node.entries, Node.entriesForest_eq]

/-- Structural induction over nodes with access to all children. -/
theorem Node.strongInduction (P : Node → Prop)
    (ih : ∀ k i d cs, (∀ c ∈ cs, P c) → P (.mk k i d cs)) : ∀ n, P n := by
  have main : ∀ sz (n : Node), sizeOf n ≤ sz → P n := by
    intro sz
    induction sz with
    | zero =>
        intro n hn
        cases n with
        | mk k i d cs => simp [Node.mk.sizeOf_spec] at hn
    | succ sz ihsz =>
        intro n hn
        cases n with
        | mk k i d cs =>
            apply ih
            intro c hc
            apply ihsz
            have h1 := List.sizeOf_lt_of_mem hc
            simp [Node.mk.sizeOf_spec] at hn
            omega
  exact fun n => main (sizeOf n) n le_rfl

theorem Node.keys_mk (k : Int) (i d : Nat) (cs : List Node) :
    (Node.mk k i d cs).keys = k :: (cs.map Node.keys).flatten := by
  simp [Node.keys, Node.entries_mk, List.map_flatten, List.map_map]
  rfl

theorem Node.keys_eq_entries_map (n : Node) : n.keys = n.entries.map Prod.snd := rfl

theorem Node.key_mem_keys (n : Node) : n.key ∈ n.keys := by
  cases n with
  | mk k i d cs => rw [Node.keys_mk]; exact List.mem_cons_self _ _

theorem Node.keys_length_pos (n : Node) : 0 < n.keys.length := by
  cases n with
  | mk k i d cs => rw [Node.keys_mk]; simp

theorem Node.mem_keys_of_mem_child {n c : Node} (hc : c ∈ n.children) {x : Int}
    (hx : x ∈ c.keys) : x ∈ n.keys := by
  cases n with
  | mk k i d cs =>
      rw [Node.keys_mk]
      refine List.mem_cons_of_mem _ (List.mem_flatten.mpr ⟨c.keys, ?_, hx⟩)
      exact List.mem_map_of_mem _ hc

theorem HeapOrd.le_keys {n : Node} (h : HeapOrd n) : ∀ x ∈ n.keys, n.key ≤ x := by
  induction n using Node.strongInduction with
  | ih k i d cs ihc =>
      intro x hx
      cases h with
      | mk _ _ _ _ hle hall =>
          rw [Node.keys_mk] at hx
          rcases List.mem_cons.mp hx with rfl | hx'
          · simp [Node.key]
          · rcases List.mem_flatten.mp hx' with ⟨ks, hks, hxks⟩
            rcases List.mem_map.mp hks with ⟨c, hc, rfl⟩
            have := ihc c hc (hall c hc) x hxks
            calc (Node.mk k i d cs).key ≤ c.key := by simpa [Node.key] using hle c hc
              _ ≤ x := this

theorem HeapOrd.childrenOrd {n : Node} (h : HeapOrd n) : ∀ c ∈ n.children, HeapOrd c := by
  cases h with
  | mk k i d cs hle hall => exact hall

theorem IsBinomial.childrenBinomial {n : Node} (h : IsBinomial n) :
    ∀ c ∈ n.children, IsBinomial c := by
  cases h with
  | mk k i d cs hd hdeg hall => exact hall

theorem Good.childrenGood {n : Node} (h : Good n) : ∀ c ∈ n.children, Good c :=
  fun c hc => ⟨h.1.childrenBinomial c hc, h.2.childrenOrd c hc⟩

theorem sum_pow_two_range (d : Nat) :
    ((List.range d).map (fun j => 2 ^ j)).sum = 2 ^ d - 1 := by
  induction d with
  | zero => simp
  | succ d ih =>
      rw [List.range_succ]
      have h1 : (1 : Nat) ≤ 2 ^ d := Nat.one_le_two_pow
      simp [ih, pow_succ]
      omega

/-- A binomial tree of degree `d` holds exactly `2 ^ d` keys. -/
theorem IsBinomial.keys_length {n : Node} (h : IsBinomial n) :
    n.keys.length = 2 ^ n.degree := by
  induction n using Node.strongInduction with
  | ih k i d cs ihc =>
      cases h with
      | mk _ _ _ _ hd hdeg hall =>
          rw [Node.keys_mk]
          simp only [List.length_cons, Node.degree, List.length_flatten, List.map_map]
          have hmapeq : cs.map (List.length ∘ Node.keys) =
              cs.map (fun c => 2 ^ c.degree) :=
            List.map_congr_left (fun c hc => ihc c hc (hall c hc))
          have hmap2 : cs.map (fun c => 2 ^ c.degree) =
              (cs.map Node.degree).map (fun j => 2 ^ j) := by
            rw [List.map_map]; rfl
          have hsum : (cs.map (List.length ∘ Node.keys)).sum = 2 ^ d - 1 := by
            rw [hmapeq, hmap2, hdeg, List.map_reverse, List.sum_reverse,
              sum_pow_two_range]
          have h1 : (1 : Nat) ≤ 2 ^ d := Nat.one_le_two_pow
          rw [hsum]
          omega


/-! ### Forests -/

/-- All `(id, key)` pairs in a list of trees. -/
def forestEntries (l : List Node) : List (Nat × Int) :=
  (l.map Node.entries).flatten

/-- All keys in a list of trees. -/
def forestKeys (l : List Node) : List Int :=
  (l.map Node.keys).flatten

@[simp]
theorem forestEntries_nil : forestEntries [] = [] := rfl

@[simp]
theorem forestEntries_cons (n : Node) (l : List Node) :
    forestEntries (n :: l) = n.entries ++ forestEntries l := by
  simp [forestEntries]

@[simp]
theorem forestEntries_append (l1 l2 : List Node) :
    forestEntries (l1 ++ l2) = forestEntries l1 ++ forestEntries l2 := by
  simp [forestEntries]

@[simp]
theorem forestKeys_nil : forestKeys [] = [] := rfl

@[simp]
theorem forestKeys_cons (n : Node) (l : List Node) :
    forestKeys (n :: l) = n.keys ++ forestKeys l := by
  simp [forestKeys]

@[simp]
theorem forestKeys_append (l1 l2 : List Node) :
    forestKeys (l1 ++ l2) = forestKeys l1 ++ forestKeys l2 := by
  simp [forestKeys]

theorem forestKeys_eq_map_entries (l : List Node) :
    forestKeys l = (forestEntries l).map Prod.snd := by
  induction l with
  | nil => rfl
  | cons n t ih => simp [ih, Node.keys_eq_entries_map]

theorem mem_forestKeys_of_mem {r : Node} {l : List Node} (hr : r ∈ l) :
    ∀ x ∈ r.keys, x ∈ forestKeys l := by
  intro x hx
  simp only [forestKeys, List.mem_flatten]
  exact ⟨r.keys, List.mem_map_of_mem _ hr, hx⟩

theorem forestKeys_length_pos {l : List Node} (h : l ≠ []) :
    0 < (forestKeys l).length := by
  cases l with
  | nil => exact absurd rfl h
  | cons n t =>
      have := Node.keys_length_pos n
      simp only [forestKeys_cons, List.length_append]
      omega

/-! ### Facts about `link` -/

theorem range_succ_reverse (d : Nat) :
    (List.range (d + 1)).reverse = d :: (List.range d).reverse := by
  rw [List.range_succ]
  simp

theorem link_entries (a b : Node) :
    (link a b).entries.Perm (a.entries ++ b.entries) := by
  obtain ⟨ka, ia, da, csa⟩ := a
  obtain ⟨kb, ib, db, csb⟩ := b
  rw [link]
  by_cases h : (Node.mk ka ia da csa).key > (Node.mk kb ib db csb).key
  · rw [if_pos h]
    simp only [Node.entries_mk, Node.children_mk, Node.key_mk, Node.id_mk,
      Node.degree_mk, List.map_cons, List.flatten_cons]
    exact List.perm_middle.symm
  · rw [if_neg h]
    simp only [Node.entries_mk, Node.children_mk, Node.key_mk, Node.id_mk,
      Node.degree_mk, List.map_cons, List.flatten_cons, List.cons_append]
    exact List.Perm.cons _
      ((List.Perm.cons _ List.perm_append_comm).trans List.perm_middle.symm)

theorem link_keys (a b : Node) :
    (link a b).keys.Perm (a.keys ++ b.keys) := by
  have h := link_entries a b
  have := h.map Prod.snd
  simpa [Node.keys_eq_entries_map, List.map_append] using this

theorem link_degree {a b : Node} (h : a.degree = b.degree) :
    (link a b).degree = a.degree + 1 := by
  rw [link]
  by_cases hk : a.key > b.key
  · rw [if_pos hk]; simp [h]
  · rw [if_neg hk]; simp

theorem link_key_le (a b : Node) :
    (link a b).key ≤ a.key ∧ (link a b).key ≤ b.key := by
  rw [link]
  by_cases hk : a.key > b.key
  · rw [if_pos hk]; exact ⟨le_of_lt hk, le_refl _⟩
  · rw [if_neg hk]; exact ⟨le_refl _, not_lt.mp hk⟩

theorem link_good {a b : Node} (ha : Good a) (hb : Good b)
    (hd : a.degree = b.degree) : Good (link a b) := by
  obtain ⟨ka, ia, da, csa⟩ := a
  obtain ⟨kb, ib, db, csb⟩ := b
  have hd' : da = db := by simpa using hd
  obtain ⟨hbina, horda⟩ := ha
  obtain ⟨hbinb, hordb⟩ := hb
  rw [link]
  by_cases hk : (Node.mk ka ia da csa).key > (Node.mk kb ib db csb).key
  · rw [if_pos hk]
    simp only [Node.key_mk] at hk
    cases hbinb with
    | mk _ _ _ _ hdb hdegb hallb =>
        cases hordb with
        | mk _ _ _ _ hleb hallob =>
            simp only [Node.key_mk, Node.id_mk, Node.degree_mk, Node.children_mk]
            constructor
            · refine IsBinomial.mk _ _ _ _ ?_ ?_ ?_
              · simp [hdb]
              · simp only [List.map_cons, Node.degree_mk]
                rw [hdegb, range_succ_reverse, hd']
              · intro c hc
                rcases List.mem_cons.mp hc with rfl | hc'
                · exact hbina
                · exact hallb c hc'
            · refine HeapOrd.mk _ _ _ _ ?_ ?_
              · intro c hc
                rcases List.mem_cons.mp hc with rfl | hc'
                · simpa using le_of_lt hk
                · exact hleb c hc'
              · intro c hc
                rcases List.mem_cons.mp hc with rfl | hc'
                · exact horda
                · exact hallob c hc'
  · rw [if_neg hk]
    simp only [Node.key_mk] at hk
    cases hbina with
    | mk _ _ _ _ hda hdega halla =>
        cases horda with
        | mk _ _ _ _ hlea halloa =>
            simp only [Node.key_mk, Node.id_mk, Node.degree_mk, Node.children_mk]
            constructor
            · refine IsBinomial.mk _ _ _ _ ?_ ?_ ?_
              · simp [hda]
              · simp only [List.map_cons, Node.degree_mk]
                rw [hdega, range_succ_reverse, ← hd']
              · intro c hc
                rcases List.mem_cons.mp hc with rfl | hc'
                · exact hbinb
                · exact halla c hc'
            · refine HeapOrd.mk _ _ _ _ ?_ ?_
              · intro c hc
                rcases List.mem_cons.mp hc with rfl | hc'
                · simpa using not_lt.mp hk
                · exact hlea c hc'
              · intro c hc
                rcases List.mem_cons.mp hc with rfl | hc'
                · exact hordb
                · exact halloa c hc'

/-! ### Facts about the root-list minimum scan -/

theorem scanMin_mem (a : Node) (l : List Node) : scanMin a l ∈ a :: l := by
  induction l generalizing a with
  | nil => simp [scanMin]
  | cons c rest ih =>
      by_cases hc : c.key < a.key
      · rw [scanMin, if_pos hc]
        exact List.mem_cons_of_mem _ (ih c)
      · rw [scanMin, if_neg hc]
        rcases List.mem_cons.mp (ih a) with h | h
        · rw [h]
          exact List.mem_cons_self _ _
        · exact List.mem_cons_of_mem _ (List.mem_cons_of_mem _ h)

theorem scanMin_le (a : Node) (l : List Node) :
    ∀ r ∈ a :: l, (scanMin a l).key ≤ r.key := by
  induction l generalizing a with
  | nil =>
      intro r hr
      rcases List.mem_cons.mp hr with heq | h
      · rw [heq]
        simp [scanMin]
      · simp at h
  | cons c rest ih =>
      intro r hr
      by_cases hc : c.key < a.key
      · rw [scanMin, if_pos hc]
        rcases List.mem_cons.mp hr with heq | h
        · rw [heq]
          exact le_trans (ih c c (List.mem_cons_self _ _)) (le_of_lt hc)
        · exact ih c r h
      · rw [scanMin, if_neg hc]
        rcases List.mem_cons.mp hr with heq | h
        · rw [heq]
          exact ih a a (List.mem_cons_self _ _)
        · rcases List.mem_cons.mp h with heq2 | h2
          · rw [heq2]
            exact le_trans (ih a a (List.mem_cons_self _ _)) (not_lt.mp hc)
          · exact ih a r (List.mem_cons_of_mem _ h2)

/-- The scan finds the *first* root attaining the minimal key, and
`eraseFirstKey` with that key splices out exactly that root: the root list
decomposes as `l₁ ++ scanMin :: l₂` with every root in `l₁` strictly larger. -/
theorem scanMin_erase_decomp (a : Node) (l : List Node) :
    ∃ l₁ l₂, a :: l = l₁ ++ scanMin a l :: l₂ ∧
      eraseFirstKey (scanMin a l).key (a :: l) = l₁ ++ l₂ ∧
      ∀ r ∈ l₁, (scanMin a l).key < r.key := by
  induction l generalizing a with
  | nil =>
      refine ⟨[], [], by simp [scanMin], ?_, by simp⟩
      simp [scanMin, eraseFirstKey]
  | cons c rest ih =>
      by_cases hc : c.key < a.key
      · have hs : scanMin a (c :: rest) = scanMin c rest := by
          rw [scanMin, if_pos hc]
        obtain ⟨l₁, l₂, hdec, herase, hlt⟩ := ih c
        have hkey_lt : (scanMin c rest).key < a.key :=
          lt_of_le_of_lt (scanMin_le c rest c (List.mem_cons_self _ _)) hc
        refine ⟨a :: l₁, l₂, ?_, ?_, ?_⟩
        · rw [hs, List.cons_append, ← hdec]
        · rw [hs, eraseFirstKey, if_neg (ne_of_gt hkey_lt), herase, List.cons_append]
        · intro r hr
          rw [hs]
          rcases List.mem_cons.mp hr with heq | h
          · rw [heq]
            exact hkey_lt
          · exact hlt r h
      · have hs : scanMin a (c :: rest) = scanMin a rest := by
          rw [scanMin, if_neg hc]
        have hac : a.key ≤ c.key := not_lt.mp hc
        obtain ⟨l₁, l₂, hdec, herase, hlt⟩ := ih a
        cases l₁ with
        | nil =>
            rw [List.nil_append] at hdec herase
            injection hdec with ha_eq hl₂
            refine ⟨[], c :: rest, ?_, ?_, by simp⟩
            · rw [hs, List.nil_append, ← ha_eq]
            · rw [hs, eraseFirstKey, if_pos (by rw [← ha_eq]), List.nil_append]
        | cons x l₁' =>
            rw [List.cons_append] at hdec
            injection hdec with hax hrest
            have hlt_a : (scanMin a rest).key < a.key := by
              have := hlt x (List.mem_cons_self _ _)
              rw [← hax] at this
              exact this
            have hlt_c : (scanMin a rest).key < c.key := lt_of_lt_of_le hlt_a hac
            have herase_rest : eraseFirstKey (scanMin a rest).key rest = l₁' ++ l₂ := by
              rw [eraseFirstKey, if_neg (ne_of_gt hlt_a), List.cons_append] at herase
              injection herase with h1 h2
            refine ⟨a :: c :: l₁', l₂, ?_, ?_, ?_⟩
            · rw [hs]
              simp only [List.cons_append]
              rw [← hrest]
            · rw [hs, eraseFirstKey, if_neg (ne_of_gt hlt_a), eraseFirstKey,
                if_neg (ne_of_gt hlt_c), herase_rest]
              simp
            · intro r hr
              rw [hs]
              rcases List.mem_cons.mp hr with heq | h
              · rw [heq]
                exact hlt_a
              · rcases List.mem_cons.mp h with heq2 | h2
                · rw [heq2]
                  exact hlt_c
                · exact hlt r (List.mem_cons_of_mem _ h2)

/-- Specification of the shared `remove_min` logic. -/
theorem removeMinRoots_spec {roots : List Node} {m : Node} {rest : List Node}
    (h : removeMinRoots roots = some (m, rest)) :
    m ∈ roots ∧ (∀ r ∈ roots, m.key ≤ r.key) ∧ roots.Perm (m :: rest) ∧
      ∀ r ∈ rest, r ∈ roots := by
  cases roots with
  | nil => simp [removeMinRoots] at h
  | cons a l =>
      simp only [removeMinRoots, Option.some.injEq, Prod.mk.injEq] at h
      obtain ⟨hm, hrest⟩ := h
      obtain ⟨l₁, l₂, hdec, herase, _⟩ := scanMin_erase_decomp a l
      have hperm : (a :: l).Perm (scanMin a l :: (l₁ ++ l₂)) := by
        rw [hdec]
        exact List.perm_middle
      rw [← herase, hrest] at hperm
      rw [hm] at hperm
      refine ⟨hm ▸ scanMin_mem a l, hm ▸ scanMin_le a l, hperm, ?_⟩
      intro r hr
      exact hperm.symm.subset (List.mem_cons_of_mem _ hr)

theorem removeMinRoots_none {roots : List Node} :
    removeMinRoots roots = none ↔ roots = [] := by
  cases roots <;> simp [removeMinRoots]

/-! ### `count_sort`: bucketing the roots by degree -/

theorem getD_set_self {l : List (List Node)} {i : Nat} (v : List Node)
    (h : i < l.length) : (l.set i v).getD i [] = v := by
  simp [List.getD, List.getElem?_set_self, h]

theorem getD_set_ne {l : List (List Node)} {i j : Nat} (v : List Node)
    (h : i ≠ j) : (l.set i v).getD j [] = l.getD j [] := by
  simp [List.getD, List.getElem?_set_ne h]

/-- Reconstructing a list of buckets from its positions. -/
theorem buckets_eq_range_map (buckets : List (List Node)) :
    buckets = (List.range buckets.length).map (fun j => buckets.getD j []) := by
  refine List.ext_get (by simp) ?_
  intro i h1 h2
  simp only [List.get_eq_getElem, List.getElem_map, List.getElem_range]
  rw [List.getD_eq_getElem _ _ h1]

theorem count_sort_go_eq (roots : List Node) (buckets : List (List Node))
    (hdeg : ∀ r ∈ roots, r.degree < buckets.length) :
    count_sort.go roots buckets =
      some ((List.range buckets.length).map
        (fun j => buckets.getD j [] ++ roots.filter (fun r => r.degree == j))) := by
  induction roots generalizing buckets with
  | nil =>
      rw [count_sort.go]
      simp only [List.filter_nil, List.append_nil]
      rw [← buckets_eq_range_map]
  | cons n rest ih =>
      have hn : n.degree < buckets.length := hdeg n (List.mem_cons_self _ _)
      rw [count_sort.go, if_pos hn]
      have hlen : (buckets.set n.degree (buckets.getD n.degree [] ++ [n])).length =
          buckets.length := by simp
      rw [ih _ (by rw [hlen]; exact fun r hr => hdeg r (List.mem_cons_of_mem _ hr))]
      rw [hlen]
      congr 1
      refine List.map_congr_left ?_
      intro j hj
      by_cases hjd : n.degree = j
      · subst hjd
        rw [getD_set_self _ hn, List.filter_cons, if_pos (by simp), List.append_assoc]
        simp
      · rw [getD_set_ne _ hjd, List.filter_cons,
          if_neg (by simp; exact fun h => absurd h hjd)]

theorem count_sort_eq (roots : List Node) (size : Nat)
    (hdeg : ∀ r ∈ roots, r.degree < Nat.clog 2 size + 1) :
    count_sort roots size =
      some ((List.range (Nat.clog 2 size + 1)).map
        (fun j => roots.filter (fun r => r.degree == j))) := by
  have hrep : ∀ j, (List.replicate (Nat.clog 2 size + 1) ([] : List Node)).getD j [] = [] := by
    intro j
    rcases Nat.lt_or_ge j (Nat.clog 2 size + 1) with h | h
    · rw [List.getD_eq_getElem _ _ (by simpa using h)]
      simp
    · rw [List.getD_eq_default _ _ (by simpa using h)]
  rw [count_sort, count_sort_go_eq _ _ (by simpa using hdeg)]
  simp only [List.length_replicate, hrep, List.nil_append]

/-- Inserting one extra element into a single position of a partition is a
permutation-level cons. -/
theorem flatten_map_cons_at {β : Type} [DecidableEq β] (js : List β) (d : β)
    (hd : d ∈ js) (hnd : js.Nodup) (f : β → List Node) (n : Node) :
    ((js.map (fun j => if j = d then n :: f j else f j)).flatten).Perm
      (n :: (js.map f).flatten) := by
  induction js with
  | nil => simp at hd
  | cons j rest ih =>
      rcases List.mem_cons.mp hd with heq | hmem
      · subst heq
        have hrest : ∀ j' ∈ rest, (if j' = d then n :: f j' else f j') = f j' := by
          intro j' hj'
          rw [if_neg]
          intro hj'd
          exact (List.nodup_cons.mp hnd).1 (hj'd ▸ hj')
        rw [List.map_cons, List.flatten_cons, if_pos rfl,
          List.map_congr_left hrest, List.map_cons, List.flatten_cons]
        simp
      · have hjd : j ≠ d := by
          intro hjd
          rw [hjd] at hnd
          exact (List.nodup_cons.mp hnd).1 hmem
        rw [List.map_cons, List.flatten_cons, if_neg hjd, List.map_cons,
          List.flatten_cons]
        exact (List.Perm.append_left (f j)
          (ih hmem (List.nodup_cons.mp hnd).2)).trans List.perm_middle

/-- Bucketing the roots into per-degree filters is a permutation of the
root list. -/
theorem filter_partition_perm (roots : List Node) (L : Nat)
    (hdeg : ∀ r ∈ roots, r.degree < L) :
    (((List.range L).map (fun j => roots.filter (fun r => r.degree == j))).flatten).Perm
      roots := by
  induction roots with
  | nil => simp
  | cons n rest ih =>
      have hdegn : n.degree < L := hdeg n (List.mem_cons_self _ _)
      have hmap : ∀ j ∈ List.range L,
          (n :: rest).filter (fun r => r.degree == j) =
            (if j = n.degree then n :: rest.filter (fun r => r.degree == j)
             else rest.filter (fun r => r.degree == j)) := by
        intro j _
        rw [List.filter_cons]
        by_cases hjn : j = n.degree
        · rw [if_pos (by simp [hjn]), if_pos hjn]
        · rw [if_neg (by simp only [beq_iff_eq]; exact fun h => hjn h.symm),
            if_neg hjn]
      rw [List.map_congr_left hmap]
      exact (flatten_map_cons_at (List.range L) n.degree (List.mem_range.mpr hdegn)
        (List.nodup_range _) _ n).trans
        ((ih (fun r hr => hdeg r (List.mem_cons_of_mem _ hr))).cons n)

/-! ### Permutation utilities -/

theorem perm_rotate {α : Type} (A B C : List α) :
    (A ++ (B ++ C)).Perm (B ++ (A ++ C)) := by
  rw [← List.append_assoc, ← List.append_assoc]
  exact List.Perm.append_right C List.perm_append_comm

theorem forestEntries_perm {l₁ l₂ : List Node} (h : l₁.Perm l₂) :
    (forestEntries l₁).Perm (forestEntries l₂) := by
  induction h with
  | nil => simp
  | cons x _ ih => simpa using ih.append_left x.entries
  | swap x y l =>
      simp only [forestEntries_cons]
      exact perm_rotate _ _ _
  | trans _ _ ih1 ih2 => exact ih1.trans ih2

theorem forestEntries_reverse (l : List Node) :
    (forestEntries l.reverse).Perm (forestEntries l) :=
  forestEntries_perm (List.reverse_perm l)

theorem Node.keys_length_eq (n : Node) : n.keys.length = n.entries.length := by
  simp [Node.keys]

theorem forestKeys_eq_length (l : List Node) :
    (forestKeys l).length = (forestEntries l).length := by
  rw [forestKeys_eq_map_entries, List.length_map]

/-! ### The linking loop -/

theorem linkRun_spec (rl : List Node) (d : Nat)
    (hdeg : ∀ t ∈ rl, t.degree = d) (hgood : ∀ t ∈ rl, Good t) :
    (∀ t ∈ (linkRun rl).1, t ∈ rl) ∧
    (linkRun rl).1.length ≤ 1 ∧
    (∀ t ∈ (linkRun rl).2, t.degree = d + 1 ∧ Good t) ∧
    (forestEntries (linkRun rl).1 ++ forestEntries (linkRun rl).2).Perm
      (forestEntries rl) := by
  induction rl using linkRun.induct with
  | case1 => simp [linkRun]
  | case2 x => simp [linkRun]
  | case3 t1 t2 rest ih =>
      obtain ⟨ih_mem, ih_len, ih_carry, ih_perm⟩ :=
        ih (fun t ht => hdeg t (List.mem_cons_of_mem _ (List.mem_cons_of_mem _ ht)))
          (fun t ht => hgood t (List.mem_cons_of_mem _ (List.mem_cons_of_mem _ ht)))
      have h1 : t1 ∈ t1 :: t2 :: rest := List.mem_cons_self _ _
      have h2 : t2 ∈ t1 :: t2 :: rest := List.mem_cons_of_mem _ (List.mem_cons_self _ _)
      have hd12 : t1.degree = t2.degree := by rw [hdeg t1 h1, hdeg t2 h2]
      refine ⟨?_, ?_, ?_, ?_⟩
      · simp only [linkRun]
        intro t ht
        exact List.mem_cons_of_mem _ (List.mem_cons_of_mem _ (ih_mem t ht))
      · simp only [linkRun]
        exact ih_len
      · simp only [linkRun]
        intro t ht
        rcases List.mem_cons.mp ht with heq | hmem
        · subst heq
          constructor
          · rw [link_degree hd12, hdeg t1 h1]
          · exact link_good (hgood t1 h1) (hgood t2 h2) hd12
        · exact ih_carry t hmem
      · simp only [linkRun, forestEntries_cons]
        refine (perm_rotate _ _ _).trans ?_
        refine ((link_entries t1 t2).append ih_perm).trans ?_
        rw [List.append_assoc]

/-- Buckets indexed from `base`: bucket `j` holds well-formed trees of
degree `base + j`. -/
def GradedFrom : Nat → List (List Node) → Prop
  | _, [] => True
  | base, b :: bs => (∀ t ∈ b, t.degree = base ∧ Good t) ∧ GradedFrom (base + 1) bs

theorem consolidateLoop_spec :
    ∀ (bs : List (List Node)) (carry : List Node) (base : Nat),
    GradedFrom base bs →
    (∀ t ∈ carry, t.degree = base ∧ Good t) →
    (forestEntries (bs.flatten ++ carry)).length < 2 ^ (base + bs.length) →
    ∃ out, consolidateLoop bs carry = some out ∧ out.length = bs.length ∧
      GradedFrom base out ∧ (∀ b ∈ out, b.length ≤ 1) ∧
      (forestEntries out.flatten).Perm (forestEntries (bs.flatten ++ carry)) := by
  intro bs
  induction bs with
  | nil =>
      intro carry base _ hcarry hbound
      cases carry with
      | nil => exact ⟨[], rfl, rfl, trivial, by simp, by simp⟩
      | cons t ts =>
          exfalso
          obtain ⟨hdeg, hgood⟩ := hcarry t (List.mem_cons_self _ _)
          have hlen : t.entries.length = 2 ^ base := by
            rw [← Node.keys_length_eq, hgood.1.keys_length, hdeg]
          have hle : t.entries.length ≤ (forestEntries ([].flatten ++ t :: ts)).length := by
            simp [forestEntries]
          simp only [List.length_nil, Nat.add_zero] at hbound
          omega
  | cons b bs ih =>
      intro carry base hgraded hcarry hbound
      obtain ⟨hb, hbs⟩ := hgraded
      have hcont : ∀ t ∈ (b ++ carry).reverse, t.degree = base ∧ Good t := by
        intro t ht
        rcases List.mem_append.mp (List.mem_reverse.mp ht) with h | h
        · exact hb t h
        · exact hcarry t h
      obtain ⟨hrem_mem, hrem_len, hcarry', hperm⟩ :=
        linkRun_spec ((b ++ carry).reverse) base
          (fun t ht => (hcont t ht).1) (fun t ht => (hcont t ht).2)
      -- entries of the contents, in either order
      have hcontperm : (forestEntries ((b ++ carry).reverse)).Perm
          (forestEntries b ++ forestEntries carry) := by
        simpa using forestEntries_reverse (b ++ carry)
      -- the recursive call
      have hboundrec :
          (forestEntries (bs.flatten ++ (linkRun ((b ++ carry).reverse)).2)).length <
            2 ^ (base + 1 + bs.length) := by
        have h1 := hperm.length_eq
        have h2 := hcontperm.length_eq
        simp only [List.length_append] at h1 h2
        have h3 : (forestEntries (bs.flatten ++ (linkRun ((b ++ carry).reverse)).2)).length
            = (forestEntries bs.flatten).length +
              (forestEntries (linkRun ((b ++ carry).reverse)).2).length := by
          rw [forestEntries_append, List.length_append]
        have h4 : (forestEntries ((b :: bs).flatten ++ carry)).length =
            (forestEntries b).length + (forestEntries bs.flatten).length +
              (forestEntries carry).length := by
          simp only [List.flatten_cons, List.append_assoc, forestEntries_append,
            List.length_append]
          omega
        have h5 : base + 1 + bs.length = base + (bs.length + 1) := by omega
        rw [h3, h5]
        rw [h4] at hbound
        simp only [List.length_cons] at hbound
        omega
      obtain ⟨out, hout, hout_len, hout_graded, hout_short, hout_perm⟩ :=
        ih (linkRun ((b ++ carry).reverse)).2 (base + 1) hbs
          (fun t ht => hcarry' t ht) hboundrec
      refine ⟨(linkRun ((b ++ carry).reverse)).1 :: out, ?_, by simp [hout_len], ?_, ?_, ?_⟩
      · rw [consolidateLoop, hout]
      · exact ⟨fun t ht => hcont t (hrem_mem t ht), hout_graded⟩
      · intro bkt hbkt
        rcases List.mem_cons.mp hbkt with heq | hmem
        · rw [heq]
          exact hrem_len
        · exact hout_short bkt hmem
      · -- entries bookkeeping
        simp only [List.flatten_cons, forestEntries_append]
        refine (List.Perm.append_left _ hout_perm).trans ?_
        simp only [forestEntries_append]
        -- rem ++ (bs.flatten ++ carries) ~ (b ++ bs.flatten) ++ carry
        have step1 : (forestEntries (linkRun ((b ++ carry).reverse)).1 ++
            (forestEntries bs.flatten ++ forestEntries (linkRun ((b ++ carry).reverse)).2)).Perm
            (forestEntries bs.flatten ++
              (forestEntries (linkRun ((b ++ carry).reverse)).1 ++
                forestEntries (linkRun ((b ++ carry).reverse)).2)) :=
          perm_rotate _ _ _
        refine step1.trans ?_
        have step2 := hperm.trans hcontperm
        refine (List.Perm.append_left _ step2).trans ?_
        simpa using perm_rotate (forestEntries bs.flatten) (forestEntries b)
          (forestEntries carry)

/-! ### Arithmetic facts about `log` and `clog` -/

theorem log_le_clog (n : Nat) : Nat.log 2 n ≤ Nat.clog 2 n := by
  rcases Nat.eq_zero_or_pos n with rfl | hn
  · simp
  have h1 : 2 ^ Nat.log 2 n ≤ n := Nat.pow_log_le_self 2 (Nat.pos_iff_ne_zero.mp hn)
  have h2 : n ≤ 2 ^ Nat.clog 2 n := Nat.le_pow_clog one_lt_two n
  exact (Nat.pow_le_pow_iff_right one_lt_two).mp (le_trans h1 h2)

theorem clog_succ_eq_log_add_one {n : Nat} (hn : 1 ≤ n) :
    Nat.clog 2 (n + 1) = Nat.log 2 n + 1 := by
  refine le_antisymm ?_ ?_
  · exact (Nat.le_pow_iff_clog_le one_lt_two).mp
      (Nat.lt_pow_succ_log_self one_lt_two n)
  · by_contra hcon
    push_neg at hcon
    have hle : Nat.clog 2 (n + 1) ≤ Nat.log 2 n := by omega
    have := (Nat.le_pow_iff_clog_le one_lt_two).mpr hle
    have h2 : 2 ^ Nat.log 2 n ≤ n := Nat.pow_log_le_self 2 (by omega)
    omega

/-- Each tree of a forest contributes its keys to the forest total. -/
theorem keys_length_le_total {r : Node} {l : List Node} (hr : r ∈ l) :
    r.keys.length ≤ (forestKeys l).length := by
  obtain ⟨s, t, rfl⟩ := List.append_of_mem hr
  simp only [forestKeys_append, forestKeys_cons, List.length_append]
  omega

/-- Every root of a well-formed forest with `size` total keys fits the
bucket array allocated by `count_sort`: its degree is strictly below
`ceil(log2(size)) + 1`. -/
theorem root_degree_lt {roots : List Node} {size : Nat}
    (hgood : ∀ r ∈ roots, Good r)
    (hsize : (forestKeys roots).length = size) :
    ∀ r ∈ roots, r.degree < Nat.clog 2 size + 1 := by
  intro r hr
  have h1 : 2 ^ r.degree = r.keys.length := ((hgood r hr).1.keys_length).symm
  have h2 : r.keys.length ≤ size := hsize ▸ keys_length_le_total hr
  have h3 : 2 ^ r.degree ≤ size := by omega
  have hpos : 0 < size := lt_of_lt_of_le (by positivity) h3
  have h4 : r.degree ≤ Nat.log 2 size :=
    (Nat.pow_le_iff_le_log one_lt_two (Nat.pos_iff_ne_zero.mp hpos)).mp h3
  have := log_le_clog size
  omega

/-! ### From buckets back to the root list -/

/-- When every bucket holds at most one tree, taking the front of each
non-empty bucket is exactly flattening. -/
theorem filterMap_head_eq_flatten {bs : List (List Node)}
    (h : ∀ b ∈ bs, b.length ≤ 1) : bs.filterMap List.head? = bs.flatten := by
  induction bs with
  | nil => rfl
  | cons b rest ih =>
      have hb := h b (List.mem_cons_self _ _)
      have hrest := ih (fun b' hb' => h b' (List.mem_cons_of_mem _ hb'))
      cases b with
      | nil => simpa using hrest
      | cons x xs =>
          cases xs with
          | nil => simpa using hrest
          | cons y ys => simp at hb

/-- The front trees of graded buckets have strictly increasing degrees. -/
theorem gradedFrom_filterMap_sorted :
    ∀ (bs : List (List Node)) (base : Nat), GradedFrom base bs →
    ((bs.filterMap List.head?).map Node.degree).Sorted (· < ·) ∧
    ∀ t ∈ bs.filterMap List.head?, base ≤ t.degree ∧ Good t := by
  intro bs
  induction bs with
  | nil => intro base _; simp
  | cons b rest ih =>
      intro base hg
      obtain ⟨hb, hrest⟩ := hg
      obtain ⟨ih_sorted, ih_elems⟩ := ih (base + 1) hrest
      cases b with
      | nil =>
          simp only [List.filterMap_cons, List.head?_nil]
          exact ⟨ih_sorted, fun t ht => ⟨by have := (ih_elems t ht).1; omega,
            (ih_elems t ht).2⟩⟩
      | cons x xs =>
          simp only [List.filterMap_cons, List.head?_cons, List.map_cons]
          have hx := hb x (List.mem_cons_self _ _)
          constructor
          · rw [List.sorted_cons]
            refine ⟨?_, ih_sorted⟩
            intro y hy
            rcases List.mem_map.mp hy with ⟨t, ht, rfl⟩
            have := (ih_elems t ht).1
            rw [hx.1]
            omega
          · intro t ht
            rcases List.mem_cons.mp ht with heq | hmem
            · rw [heq]
              exact ⟨le_of_eq hx.1.symm, hx.2⟩
            · exact ⟨by have := (ih_elems t hmem).1; omega, (ih_elems t hmem).2⟩

/-- Graded buckets built from per-degree filters. -/
theorem gradedFrom_range (L base : Nat) (h : Nat → List Node)
    (hh : ∀ j t, t ∈ h j → t.degree = base + j ∧ Good t) :
    GradedFrom base ((List.range L).map h) := by
  induction L generalizing base h with
  | zero => simp [GradedFrom]
  | succ L ih =>
      rw [List.range_succ_eq_map, List.map_cons, List.map_map]
      refine ⟨fun t ht => by simpa using hh 0 t ht, ?_⟩
      refine ih (base + 1) (h ∘ Nat.succ) ?_
      intro j t ht
      have := hh (j + 1) t ht
      exact ⟨by omega, this.2⟩

/-- Full specification of `consolidate` on a well-formed non-empty forest:
it succeeds (all bucket accesses in bounds), preserves the stored entries up
to permutation, keeps every tree well-formed, produces strictly increasing
(hence pairwise distinct) root degrees, and leaves at most
`ceil(log2(size+1))` roots. -/
theorem consolidateRoots_spec (roots : List Node) (size : Nat)
    (hne : roots ≠ [])
    (hgood : ∀ r ∈ roots, Good r)
    (hsize : (forestKeys roots).length = size) :
    ∃ out, consolidateRoots roots size = some out ∧
      (forestEntries out).Perm (forestEntries roots) ∧
      (∀ r ∈ out, Good r) ∧
      ((out.map Node.degree).Sorted (· < ·)) ∧
      out.length ≤ Nat.clog 2 (size + 1) := by
  have hdeg := root_degree_lt hgood hsize
  have hspos : 0 < size := hsize ▸ forestKeys_length_pos hne
  have hcs := count_sort_eq roots size hdeg
  set L := Nat.clog 2 size + 1 with hL
  set buckets := (List.range L).map
    (fun j => roots.filter (fun r => r.degree == j)) with hbuckets
  have hgraded : GradedFrom 0 buckets := by
    refine gradedFrom_range L 0 _ ?_
    intro j t ht
    have hm := List.mem_filter.mp ht
    refine ⟨?_, hgood t hm.1⟩
    have : t.degree = j := by simpa using hm.2
    omega
  have hflat : buckets.flatten.Perm roots := filter_partition_perm roots L hdeg
  have hbound : (forestEntries (buckets.flatten ++ [])).length <
      2 ^ (0 + buckets.length) := by
    have h1 : (forestEntries buckets.flatten).length =
        (forestEntries roots).length := (forestEntries_perm hflat).length_eq
    have h2 : (forestEntries roots).length = size := by
      rw [← forestKeys_eq_length, hsize]
    have hblen : buckets.length = L := by simp [hbuckets]
    have h3 : size ≤ 2 ^ Nat.clog 2 size := Nat.le_pow_clog one_lt_two size
    have h4 : 2 ^ Nat.clog 2 size < 2 ^ L := by
      apply Nat.pow_lt_pow_right one_lt_two
      omega
    simp only [List.append_nil, hblen, Nat.zero_add]
    omega
  obtain ⟨out2, hloop, hlen2, hgraded2, hshort2, hperm2⟩ :=
    consolidateLoop_spec buckets [] 0 hgraded (by simp) hbound
  have hout_eq : out2.filterMap List.head? = out2.flatten :=
    filterMap_head_eq_flatten hshort2
  obtain ⟨hsorted, helems⟩ := gradedFrom_filterMap_sorted out2 0 hgraded2
  have hperm_final : (forestEntries (out2.filterMap List.head?)).Perm
      (forestEntries roots) := by
    rw [hout_eq]
    refine hperm2.trans ?_
    simp only [List.append_nil]
    exact forestEntries_perm hflat
  have hcount : (out2.filterMap List.head?).length ≤ Nat.clog 2 (size + 1) := by
    have hnodup : ((out2.filterMap List.head?).map Node.degree).Nodup :=
      hsorted.nodup
    have hdegbound : ∀ d ∈ (out2.filterMap List.head?).map Node.degree,
        d < Nat.log 2 size + 1 := by
      intro d hd
      rcases List.mem_map.mp hd with ⟨t, ht, rfl⟩
      have hgt : Good t := (helems t ht).2
      have htmem : t ∈ out2.flatten := hout_eq ▸ ht
      have h1 : 2 ^ t.degree = t.keys.length := hgt.1.keys_length.symm
      have h2 : t.keys.length ≤ (forestKeys out2.flatten).length :=
        keys_length_le_total htmem
      have h3 : (forestKeys out2.flatten).length = size := by
        rw [forestKeys_eq_length, ← hout_eq,
          hperm_final.length_eq, ← forestKeys_eq_length, hsize]
      have h4 : 2 ^ t.degree ≤ size := by omega
      have h5 : t.degree ≤ Nat.log 2 size :=
        (Nat.pow_le_iff_le_log one_lt_two (by omega)).mp h4
      omega
    have hsub : ((out2.filterMap List.head?).map Node.degree).toFinset ⊆
        Finset.range (Nat.log 2 size + 1) := by
      intro d hd
      rw [Finset.mem_range]
      exact hdegbound d (List.mem_toFinset.mp hd)
    have hcard := Finset.card_le_card hsub
    rw [Finset.card_range] at hcard
    rw [List.toFinset_card_of_nodup hnodup, List.length_map] at hcard
    rw [clog_succ_eq_log_add_one hspos]
    exact hcard
  refine ⟨out2.filterMap List.head?, ?_, hperm_final,
    fun r hr => (helems r hr).2, hsorted, hcount⟩
  rw [consolidateRoots, if_neg (by simpa [List.isEmpty_iff] using hne), hcs]
  simp only [hloop]

/-! ### Derived key facts -/

theorem Node.keys_eq_cons (n : Node) :
    n.keys = n.key :: forestKeys n.children := by
  cases n with
  | mk k i d cs => rw [Node.keys_mk]; rfl

theorem keys_perm_of_entries_perm {l₁ l₂ : List Node}
    (h : (forestEntries l₁).Perm (forestEntries l₂)) :
    (forestKeys l₁).Perm (forestKeys l₂) := by
  rw [forestKeys_eq_map_entries, forestKeys_eq_map_entries]
  exact h.map Prod.snd

theorem forestKeys_perm {l₁ l₂ : List Node} (h : l₁.Perm l₂) :
    (forestKeys l₁).Perm (forestKeys l₂) :=
  keys_perm_of_entries_perm (forestEntries_perm h)

/-- A root whose key is below all root keys is below every key of a
heap-ordered forest. -/
theorem min_root_le_forest {roots : List Node} (hgood : ∀ r ∈ roots, Good r)
    {m : Node} (hle : ∀ r ∈ roots, m.key ≤ r.key) :
    ∀ x ∈ forestKeys roots, m.key ≤ x := by
  intro x hx
  simp only [forestKeys, List.mem_flatten] at hx
  obtain ⟨ks, hks, hxk⟩ := hx
  obtain ⟨r, hr, rfl⟩ := List.mem_map.mp hks
  exact le_trans (hle r hr) ((hgood r hr).2.le_keys x hxk)

/-! ### The lazy backend invariant -/

namespace LazyBinomialHeap

/-- All keys stored in the heap. -/
def keysOf (h : LazyBinomialHeap) : List Int := forestKeys h.roots

/-- The data-structure invariant of the lazy backend, holding between
public operations on every heap that has not been merged away:
all trees are heap-ordered binomial trees, `size` counts the stored keys,
and the cached `min`, present exactly on non-empty heaps, is a root whose
key bounds every stored key from below.  (A merged-away source heap
violates only the `min`-clauses: `merge` clears `head`/`tail`/`size` but
leaves the stale `min` pointer in place.) -/
structure Inv (h : LazyBinomialHeap) : Prop where
  good : ∀ r ∈ h.roots, Good r
  size_eq : h.size = (forestKeys h.roots).length
  min_none : h.roots = [] → h.min = none
  min_some : h.roots ≠ [] → ∃ m, h.min = some m ∧ m ∈ h.roots ∧
    ∀ x ∈ forestKeys h.roots, m.key ≤ x

theorem inv_empty : Inv empty :=
  ⟨by simp [empty], by simp [empty], fun _ => rfl, fun h => absurd rfl h⟩

theorem singleton_good (k : Int) (i : Nat) : Good (Node.mk k i 0 []) := by
  constructor
  · exact IsBinomial.mk _ _ _ _ rfl (by simp) (by simp)
  · exact HeapOrd.mk _ _ _ _ (by simp) (by simp)

theorem insert_spec {h : LazyBinomialHeap} (hinv : Inv h) (k : Int) :
    Inv (h.insert k) ∧
    (h.insert k).roots = h.roots ++ [Node.mk k 0 0 []] ∧
    (h.insert k).size = h.size + 1 := by
  by_cases hsz : h.size + 1 = 1
  · have hsz0 : h.size = 0 := by omega
    have hroots : h.roots = [] := by
      by_contra hne
      have := forestKeys_length_pos hne
      rw [← hinv.size_eq] at this
      omega
    have heq : h.insert k = ⟨[Node.mk k 0 0 []], some (Node.mk k 0 0 []), h.size + 1⟩ := by
      rw [insert, if_pos hsz]
    refine ⟨?_, by rw [heq, hroots]; rfl, by rw [heq]⟩
    rw [heq]
    refine ⟨?_, ?_, ?_, ?_⟩
    · intro r hr
      rcases List.mem_cons.mp hr with heq' | h'
      · rw [heq']; exact singleton_good k 0
      · simp at h'
    · simp [forestKeys, Node.keys_mk, hsz0]
    · intro hcon; simp at hcon
    · intro _
      refine ⟨Node.mk k 0 0 [], rfl, List.mem_cons_self _ _, ?_⟩
      intro x hx
      simp only [forestKeys_cons, forestKeys_nil, List.append_nil,
        Node.keys_mk] at hx
      simp only [List.map_nil, List.flatten_nil] at hx
      rcases List.mem_cons.mp hx with heq' | h'
      · rw [heq']; simp
      · simp at h'
  · have hszpos : 1 ≤ h.size := by omega
    have hroots : h.roots ≠ [] := by
      intro hcon
      rw [hinv.size_eq, hcon] at hszpos
      simp [forestKeys] at hszpos
    obtain ⟨m, hm, hmmem, hmle⟩ := hinv.min_some hroots
    have heq : h.insert k =
        ⟨h.roots ++ [Node.mk k 0 0 []],
         if k < m.key then some (Node.mk k 0 0 []) else some m,
         h.size + 1⟩ := by
      rw [insert, if_neg hsz, hm]
    refine ⟨?_, by rw [heq], by rw [heq]⟩
    rw [heq]
    refine ⟨?_, ?_, ?_, ?_⟩
    · intro r hr
      rcases List.mem_append.mp hr with h' | h'
      · exact hinv.good r h'
      · rcases List.mem_cons.mp h' with heq' | h''
        · rw [heq']; exact singleton_good k 0
        · simp at h''
    · simp only [forestKeys_append, forestKeys_cons, forestKeys_nil,
        List.append_nil, Node.keys_mk, List.map_nil, List.flatten_nil,
        List.length_append, List.length_cons, List.length_nil]
      rw [hinv.size_eq]
    · intro hcon
      simp at hcon
    · intro _
      by_cases hk : k < m.key
      · refine ⟨Node.mk k 0 0 [], by rw [if_pos hk],
          List.mem_append_right _ (List.mem_cons_self _ _), ?_⟩
        intro x hx
        simp only [forestKeys_append, forestKeys_cons, forestKeys_nil,
          List.append_nil, Node.keys_mk, List.map_nil, List.flatten_nil] at hx
        rcases List.mem_append.mp hx with h' | h'
        · exact le_trans (by simpa using le_of_lt hk) (hmle x h')
        · rcases List.mem_cons.mp h' with heq' | h''
          · rw [heq']; simp
          · simp at h''
      · refine ⟨m, by rw [if_neg hk], List.mem_append_left _ hmmem, ?_⟩
        intro x hx
        simp only [forestKeys_append, forestKeys_cons, forestKeys_nil,
          List.append_nil, Node.keys_mk, List.map_nil, List.flatten_nil] at hx
        rcases List.mem_append.mp hx with h' | h'
        · exact hmle x h'
        · rcases List.mem_cons.mp h' with heq' | h''
          · rw [heq']; exact not_lt.mp hk
          · simp at h''

end LazyBinomialHeap

namespace LazyBinomialHeap

theorem merge_roots (a b : LazyBinomialHeap) :
    (merge a b).1.roots = a.roots ++ b.roots := by
  rw [merge]
  by_cases ha : a.roots.isEmpty
  · simp only [if_pos ha]
    rw [List.isEmpty_iff.mp ha]
    rfl
  · by_cases hb : b.roots.isEmpty
    · simp only [if_neg ha, if_pos hb]
      rw [List.isEmpty_iff.mp hb]
      simp
    · simp only [if_neg ha, if_neg hb]

theorem merge_target_size (a b : LazyBinomialHeap) :
    (merge a b).1.size = a.size + b.size := rfl

theorem merge_source (a b : LazyBinomialHeap) :
    (merge a b).2 = ⟨[], b.min, 0⟩ := rfl

theorem merge_spec {a b : LazyBinomialHeap} (ha : Inv a) (hb : Inv b) :
    Inv (merge a b).1 ∧
    (merge a b).1.roots = a.roots ++ b.roots ∧
    (merge a b).1.size = a.size + b.size := by
  refine ⟨?_, merge_roots a b, merge_target_size a b⟩
  have hroots := merge_roots a b
  have hsize := merge_target_size a b
  have hmin : (merge a b).1.min =
      (match a.min, b.min with
       | none, bm => bm
       | some am, some bm => if bm.key < am.key then some bm else some am
       | some am, none => some am) := rfl
  refine ⟨?_, ?_, ?_, ?_⟩
  · intro r hr
    rw [hroots] at hr
    rcases List.mem_append.mp hr with h | h
    · exact ha.good r h
    · exact hb.good r h
  · rw [hsize, hroots, forestKeys_append, List.length_append,
      ha.size_eq, hb.size_eq]
  · intro hcon
    rw [hroots] at hcon
    have hae : a.roots = [] := by
      cases List.append_eq_nil.mp hcon; assumption
    have hbe : b.roots = [] := by
      cases List.append_eq_nil.mp hcon; assumption
    rw [hmin, ha.min_none hae, hb.min_none hbe]
  · intro hne
    rw [hroots] at hne ⊢
    by_cases hae : a.roots = []
    · have hbe : b.roots ≠ [] := by
        intro hcon; exact hne (by rw [hae, hcon]; rfl)
      obtain ⟨mb, hmb, hmbm, hmble⟩ := hb.min_some hbe
      refine ⟨mb, ?_, List.mem_append_right _ hmbm, ?_⟩
      · rw [hmin, ha.min_none hae, hmb]
      · intro x hx
        rw [forestKeys_append] at hx
        rcases List.mem_append.mp hx with h | h
        · rw [hae] at h; simp [forestKeys] at h
        · exact hmble x h
    · obtain ⟨ma, hma, hmam, hmale⟩ := ha.min_some hae
      by_cases hbe : b.roots = []
      · refine ⟨ma, ?_, List.mem_append_left _ hmam, ?_⟩
        · rw [hmin, hma, hb.min_none hbe]
        · intro x hx
          rw [forestKeys_append] at hx
          rcases List.mem_append.mp hx with h | h
          · exact hmale x h
          · rw [hbe] at h; simp [forestKeys] at h
      · obtain ⟨mb, hmb, hmbm, hmble⟩ := hb.min_some hbe
        by_cases hcmp : mb.key < ma.key
        · refine ⟨mb, ?_, List.mem_append_right _ hmbm, ?_⟩
          · rw [hmin, hma, hmb]
            simp [hcmp]
          · intro x hx
            rw [forestKeys_append] at hx
            rcases List.mem_append.mp hx with h | h
            · exact le_trans (le_of_lt hcmp) (hmale x h)
            · exact hmble x h
        · refine ⟨ma, ?_, List.mem_append_left _ hmam, ?_⟩
          · rw [hmin, hma, hmb]
            simp [hcmp]
          · intro x hx
            rw [forestKeys_append] at hx
            rcases List.mem_append.mp hx with h | h
            · exact hmale x h
            · exact le_trans (not_lt.mp hcmp) (hmble x h)

theorem update_min_spec (roots : List Node) (mn : Option Node) (sz : Nat)
    (hgood : ∀ r ∈ roots, Good r) :
    (update_min ⟨roots, mn, sz⟩).roots = roots ∧
    (update_min ⟨roots, mn, sz⟩).size = sz ∧
    (roots = [] → (update_min ⟨roots, mn, sz⟩).min = none) ∧
    (roots ≠ [] → ∃ m, (update_min ⟨roots, mn, sz⟩).min = some m ∧ m ∈ roots ∧
      ∀ x ∈ forestKeys roots, m.key ≤ x) := by
  cases roots with
  | nil => exact ⟨rfl, rfl, fun _ => rfl, fun h => absurd rfl h⟩
  | cons a l =>
      refine ⟨rfl, rfl, fun h => by simp at h, fun _ => ?_⟩
      refine ⟨scanMin a l, rfl, scanMin_mem a l, ?_⟩
      exact min_root_le_forest hgood (scanMin_le a l)

end LazyBinomialHeap

namespace LazyBinomialHeap

theorem extract_min_empty {h : LazyBinomialHeap} (hroots : h.roots = []) :
    h.extract_min = some (none, h) := by
  simp only [extract_min, remove_min, hroots, removeMinRoots]

/-- Full specification of `extract_min` on a non-empty well-formed heap:
it succeeds, returns the least stored key, removes exactly one occurrence of
it, decrements `size`, and re-establishes the invariant. -/
theorem extract_min_nonempty {h : LazyBinomialHeap} (hinv : Inv h)
    (hne : h.roots ≠ []) :
    ∃ k h', h.extract_min = some (some k, h') ∧ Inv h' ∧
      k ∈ forestKeys h.roots ∧ (∀ x ∈ forestKeys h.roots, k ≤ x) ∧
      (forestKeys h.roots).Perm (k :: forestKeys h'.roots) ∧
      h'.size = h.size - 1 := by
  obtain ⟨m, rest, hrm⟩ : ∃ m rest, removeMinRoots h.roots = some (m, rest) := by
    cases hroots : h.roots with
    | nil => exact absurd hroots hne
    | cons a l => exact ⟨_, _, rfl⟩
  obtain ⟨hm_mem, hm_le, hperm_roots, hrest_sub⟩ := removeMinRoots_spec hrm
  have hgood_m := hinv.good m hm_mem
  have hgood2 : ∀ r ∈ rest ++ m.children, Good r := by
    intro r hr
    rcases List.mem_append.mp hr with h' | h'
    · exact hinv.good r (hrest_sub r h')
    · exact hgood_m.childrenGood r h'
  have hkeysperm : (forestKeys h.roots).Perm
      (m.key :: forestKeys (rest ++ m.children)) := by
    refine (forestKeys_perm hperm_roots).trans ?_
    rw [forestKeys_cons, Node.keys_eq_cons, List.cons_append]
    refine List.Perm.cons _ ?_
    rw [forestKeys_append]
    exact List.perm_append_comm
  have hkmem : m.key ∈ forestKeys h.roots :=
    mem_forestKeys_of_mem hm_mem m.key (Node.key_mem_keys m)
  have hkle : ∀ x ∈ forestKeys h.roots, m.key ≤ x :=
    min_root_le_forest hinv.good hm_le
  have hsize2 : (forestKeys (rest ++ m.children)).length = h.size - 1 := by
    have hlen := hkeysperm.length_eq
    rw [hinv.size_eq]
    rw [List.length_cons] at hlen
    omega
  by_cases hempty2 : rest ++ m.children = []
  · have hcons : consolidateRoots (rest ++ m.children) (h.size - 1) =
        some (rest ++ m.children) := by
      rw [hempty2]
      rfl
    have hext : h.extract_min =
        some (some m.key, update_min ⟨rest ++ m.children, h.min, h.size - 1⟩) := by
      simp only [extract_min, remove_min, hrm, consolidate, hcons]
    have hupd : update_min ⟨rest ++ m.children, h.min, h.size - 1⟩ =
        ⟨[], none, h.size - 1⟩ := by
      rw [hempty2]
      rfl
    have hsz0 : h.size - 1 = 0 := by
      rw [← hsize2, hempty2]
      rfl
    refine ⟨m.key, _, hext, ?_, hkmem, hkle, ?_, ?_⟩
    · rw [hupd]
      refine ⟨?_, ?_, ?_, ?_⟩
      · intro r hr
        simp at hr
      · simpa [forestKeys] using hsz0
      · intro _
        rfl
      · intro hcon
        exact absurd rfl hcon
    · rw [hupd]
      refine hkeysperm.trans ?_
      rw [hempty2]
    · rw [hupd]
  · obtain ⟨out, hcons, hperm_e, hgood_out, _, _⟩ :=
      consolidateRoots_spec (rest ++ m.children) (h.size - 1) hempty2 hgood2 hsize2
    have hext : h.extract_min =
        some (some m.key, update_min ⟨out, h.min, h.size - 1⟩) := by
      simp only [extract_min, remove_min, hrm, consolidate, hcons]
    have hkp2 : (forestKeys out).Perm (forestKeys (rest ++ m.children)) :=
      keys_perm_of_entries_perm hperm_e
    have hone : out ≠ [] := by
      intro hcon
      have hlen := hkp2.length_eq
      rw [hcon, forestKeys_nil, List.length_nil] at hlen
      have hpos := forestKeys_length_pos hempty2
      omega
    obtain ⟨hur, hus, _, hums⟩ := update_min_spec out h.min (h.size - 1) hgood_out
    obtain ⟨m', hm', hm'mem, hm'le⟩ := hums hone
    refine ⟨m.key, update_min ⟨out, h.min, h.size - 1⟩, hext, ?_, hkmem, hkle, ?_, ?_⟩
    · refine ⟨?_, ?_, ?_, ?_⟩
      · rw [hur]
        exact hgood_out
      · rw [hur, hus, ← hsize2]
        exact hkp2.length_eq.symm
      · intro hcon
        rw [hur] at hcon
        exact absurd hcon hone
      · intro _
        rw [hur]
        exact ⟨m', hm', hm'mem, hm'le⟩
    · rw [hur]
      exact hkeysperm.trans (List.Perm.cons _ hkp2.symm)
    · rw [hus]

end LazyBinomialHeap

namespace LazyBinomialHeap

/-- Heaps built by `insert` and `merge` alone, under the ownership contract
of spec §4.4/§5: `merge` consumes its source (both operands must themselves
be built, and only the target lives on). -/
inductive Built : LazyBinomialHeap → Prop where
  | empty : Built empty
  | insert {h : LazyBinomialHeap} (k : Int) : Built h → Built (h.insert k)
  | merge {a b : LazyBinomialHeap} : Built a → Built b → Built (merge a b).1

/-- Heaps reachable through the public operations (`insert`, `merge`,
`extract_min`), under the same ownership contract. -/
inductive Reach : LazyBinomialHeap → Prop where
  | empty : Reach empty
  | insert {h : LazyBinomialHeap} (k : Int) : Reach h → Reach (h.insert k)
  | merge {a b : LazyBinomialHeap} : Reach a → Reach b → Reach (merge a b).1
  | extract {h : LazyBinomialHeap} {r : Option Int} {h' : LazyBinomialHeap} :
      Reach h → h.extract_min = some (r, h') → Reach h'

/-- Heap states arising when a sequence keeps operating on a merged-away
source heap as well (no ownership restriction): both results of a merge are
retained in the pool. -/
inductive ReachFree : LazyBinomialHeap → Prop where
  | empty : ReachFree empty
  | insert {h : LazyBinomialHeap} (k : Int) : ReachFree h → ReachFree (h.insert k)
  | mergeTarget {a b : LazyBinomialHeap} : ReachFree a → ReachFree b →
      ReachFree (merge a b).1
  | mergeSource {a b : LazyBinomialHeap} : ReachFree a → ReachFree b →
      ReachFree (merge a b).2
  | extract {h : LazyBinomialHeap} {r : Option Int} {h' : LazyBinomialHeap} :
      ReachFree h → h.extract_min = some (r, h') → ReachFree h'

theorem Built.reach {h : LazyBinomialHeap} (hb : Built h) : Reach h := by
  induction hb with
  | empty => exact .empty
  | insert k _ ih => exact .insert k ih
  | merge _ _ iha ihb => exact .merge iha ihb

theorem Reach.inv {h : LazyBinomialHeap} (hr : Reach h) : Inv h := by
  induction hr with
  | empty => exact inv_empty
  | insert k _ ih => exact (insert_spec ih k).1
  | merge _ _ iha ihb => exact (merge_spec iha ihb).1
  | extract _ hext ih =>
      rename_i h r h' _
      by_cases hne : h.roots = []
      · rw [extract_min_empty hne] at hext
        simp only [Option.some.injEq, Prod.mk.injEq] at hext
        rw [← hext.2]
        exact ih
      · obtain ⟨k, h'', hext', hinv', _, _, _, _⟩ := extract_min_nonempty ih hne
        rw [hext'] at hext
        simp only [Option.some.injEq, Prod.mk.injEq] at hext
        rw [← hext.2]
        exact hinv'

/-- The results of `fuel` successive `extract_min` calls (stopping early if
a call reports "absent"). -/
def drain : Nat → LazyBinomialHeap → Option (List Int × LazyBinomialHeap)
  | 0, h => some ([], h)
  | fuel + 1, h =>
      match h.extract_min with
      | none => none
      | some (none, h') => some ([], h')
      | some (some k, h') =>
          match drain fuel h' with
          | none => none
          | some (l, h'') => some (k :: l, h'')

theorem empty_state {h : LazyBinomialHeap} (hinv : Inv h) (hroots : h.roots = []) :
    h = empty := by
  obtain ⟨roots, mn, sz⟩ := h
  simp only at hroots
  subst hroots
  have h1 := hinv.min_none rfl
  have h2 := hinv.size_eq
  simp only at h1 h2
  rw [empty, h1, h2]
  rfl

theorem drain_spec {h : LazyBinomialHeap} (hinv : Inv h) :
    ∀ fuel, h.size ≤ fuel →
    ∃ l h', drain fuel h = some (l, h') ∧
      l.Sorted (· ≤ ·) ∧ l.Perm (forestKeys h.roots) ∧
      l.length = h.size ∧ h' = empty := by
  intro fuel
  induction fuel generalizing h with
  | zero =>
      intro hsz
      have hsz0 : h.size = 0 := by omega
      have hroots : h.roots = [] := by
        by_contra hne
        have := forestKeys_length_pos hne
        rw [← hinv.size_eq] at this
        omega
      exact ⟨[], h, rfl, List.sorted_nil, by rw [hroots]; rfl,
        by simpa using hsz0.symm, empty_state hinv hroots⟩
  | succ fuel ih =>
      intro hsz
      by_cases hne : h.roots = []
      · have hsz0 : h.size = 0 := by
          rw [hinv.size_eq, hne]
          rfl
        refine ⟨[], h, ?_, List.sorted_nil, by rw [hne]; rfl,
          by simpa using hsz0.symm, empty_state hinv hne⟩
        rw [drain, extract_min_empty hne]
      · obtain ⟨k, h1, hext, hinv1, hkmem, hkle, hkperm, hsz1⟩ :=
          extract_min_nonempty hinv hne
        have hszpos : 1 ≤ h.size := by
          have := forestKeys_length_pos hne
          rw [← hinv.size_eq] at this
          omega
        obtain ⟨l, h'', hdrain, hsorted, hperm, hlen, hempty'⟩ :=
          ih hinv1 (by omega)
        refine ⟨k :: l, h'', ?_, ?_, ?_, ?_, hempty'⟩
        · rw [drain, hext]
          simp only [hdrain]
        · rw [List.sorted_cons]
          refine ⟨?_, hsorted⟩
          intro b hb
          have hb1 : b ∈ forestKeys h1.roots := hperm.subset hb
          have hb2 : b ∈ forestKeys h.roots :=
            hkperm.symm.subset (List.mem_cons_of_mem _ hb1)
          exact hkle b hb2
        · exact (hperm.cons k).trans hkperm.symm
        · rw [List.length_cons, hlen, hsz1]
          omega

/-- Values produced by a partial drain all come from the heap's keys. -/
theorem drain_subset {h : LazyBinomialHeap} (hinv : Inv h) :
    ∀ fuel l h', drain fuel h = some (l, h') →
      ∀ x ∈ l, x ∈ forestKeys h.roots := by
  intro fuel
  induction fuel generalizing h with
  | zero =>
      intro l h' hd x hx
      simp only [drain, Option.some.injEq, Prod.mk.injEq] at hd
      rw [← hd.1] at hx
      simp at hx
  | succ fuel ih =>
      intro l h' hd x hx
      by_cases hne : h.roots = []
      · rw [drain, extract_min_empty hne] at hd
        simp only [Option.some.injEq, Prod.mk.injEq] at hd
        rw [← hd.1] at hx
        simp at hx
      · obtain ⟨k, h1, hext, hinv1, hkmem, _, hkperm, _⟩ :=
          extract_min_nonempty hinv hne
        simp only [drain, hext] at hd
        cases hdr : drain fuel h1 with
        | none => simp [hdr] at hd
        | some p =>
            simp only [hdr, Option.some.injEq, Prod.mk.injEq] at hd
            obtain ⟨hl, _⟩ := hd
            rw [← hl] at hx
            rcases List.mem_cons.mp hx with heq | hmem
            · rw [heq]; exact hkmem
            · have := ih hinv1 p.1 p.2 (by rw [hdr]) x hmem
              exact hkperm.symm.subset (List.mem_cons_of_mem _ this)

end LazyBinomialHeap

/-! ### Claim theorems -/

open LazyBinomialHeap in
/-- C1: for every heap built by any finite sequence of `insert` and `merge`
operations holding the key multiset `M` (= `forestKeys h.roots`), draining
with `|M|` `extract_min` calls succeeds, every one of those calls returns a
value, the returned values are exactly `M` in non-decreasing order, and the
heap is then in the empty state, so every further call returns absent and
leaves the state unchanged. -/
theorem extract_min_drains_sorted {h : LazyBinomialHeap} (hb : Built h) :
    ∃ l h', drain h.size h = some (l, h') ∧
      l.Sorted (· ≤ ·) ∧ l.Perm (forestKeys h.roots) ∧
      l.length = h.size ∧ h' = LazyBinomialHeap.empty ∧
      h'.extract_min = some (none, h') := by
  obtain ⟨l, h', hd, hs, hp, hl, he⟩ := drain_spec hb.reach.inv h.size le_rfl
  refine ⟨l, h', hd, hs, hp, hl, he, ?_⟩
  rw [he]
  exact extract_min_empty rfl

open LazyBinomialHeap in
theorem extract_min_drains_sorted_witness :
    ∃ l h', drain (((empty.insert 4).insert 2).insert 7).size
        (((empty.insert 4).insert 2).insert 7) = some (l, h') ∧
      l.Sorted (· ≤ ·) ∧
      l.Perm (forestKeys (((empty.insert 4).insert 2).insert 7).roots) ∧
      l.length = (((empty.insert 4).insert 2).insert 7).size ∧
      h' = LazyBinomialHeap.empty ∧ h'.extract_min = some (none, h') :=
  extract_min_drains_sorted
    (Built.insert 7 (Built.insert 2 (Built.insert 4 Built.empty)))

open LazyBinomialHeap in
/-- C2 (amended): after `merge(a, b)` the target's element count is the sum
of the two counts and its forest holds exactly the concatenation of both key
multisets; the source is left with zero elements, an empty root list, and an
absent `extract_min`; but the source's cached `min` pointer is *not*
cleared, so its `minimum()` still reports the pre-merge cached minimum
(absent only if `b` was empty). -/
theorem merge_counts_and_source_reset (a b : LazyBinomialHeap) :
    (merge a b).1.size = a.size + b.size ∧
    forestKeys (merge a b).1.roots = forestKeys a.roots ++ forestKeys b.roots ∧
    (merge a b).2.size = 0 ∧
    (merge a b).2.roots = [] ∧
    (merge a b).2.extract_min = some (none, (merge a b).2) ∧
    (merge a b).2.minimum = b.minimum := by
  refine ⟨merge_target_size a b, ?_, rfl, rfl, ?_, rfl⟩
  · rw [merge_roots, forestKeys_append]
  · exact extract_min_empty rfl

open LazyBinomialHeap in
/-- C2 counterexample: the claim "after merge, b's `minimum()` reports
absent" is false — merging away a non-empty heap leaves its stale `min`
pointer, and `minimum()` still returns the old minimum (here 7). -/
theorem merge_source_minimum_not_absent :
    (merge (LazyBinomialHeap.empty.insert 5)
      (LazyBinomialHeap.empty.insert 7)).2.minimum ≠ none ∧
    (merge (LazyBinomialHeap.empty.insert 5)
      (LazyBinomialHeap.empty.insert 7)).2.minimum = some 7 := by
  constructor
  · intro hcon
    have : (merge (LazyBinomialHeap.empty.insert 5)
        (LazyBinomialHeap.empty.insert 7)).2.minimum = some 7 := rfl
    rw [this] at hcon
    cases hcon
  · rfl

open LazyBinomialHeap in
/-- C5 (amended): on every heap reachable by sequences of `insert`, `merge`
and `extract_min` that respect merge's ownership transfer (a merged-away
source heap is consumed and not operated on again), a non-empty heap's
cached `min` is a root whose key bounds every stored key, `size` counts the
stored keys, and `minimum()` returns a key no larger than every key
obtainable by subsequent extractions. -/
theorem cached_min_is_least_root {h : LazyBinomialHeap} (hr : Reach h)
    (hne : h.size ≠ 0) :
    ∃ m, h.min = some m ∧ m ∈ h.roots ∧
      (∀ x ∈ forestKeys h.roots, m.key ≤ x) ∧
      h.size = (forestKeys h.roots).length ∧
      h.minimum = some m.key ∧
      ∀ fuel l h', drain fuel h = some (l, h') → ∀ x ∈ l, m.key ≤ x := by
  have hinv := hr.inv
  have hroots : h.roots ≠ [] := by
    intro hcon
    rw [hinv.size_eq, hcon] at hne
    exact hne rfl
  obtain ⟨m, hm, hmmem, hmle⟩ := hinv.min_some hroots
  refine ⟨m, hm, hmmem, hmle, hinv.size_eq, ?_, ?_⟩
  · rw [minimum, hm]
    rfl
  · intro fuel l h' hd x hx
    exact hmle x (drain_subset hinv fuel l h' hd x hx)

open LazyBinomialHeap in
theorem cached_min_is_least_root_witness :
    ∃ m, ((LazyBinomialHeap.empty.insert 3).insert 9).min = some m ∧
      m ∈ ((LazyBinomialHeap.empty.insert 3).insert 9).roots ∧
      (∀ x ∈ forestKeys ((LazyBinomialHeap.empty.insert 3).insert 9).roots,
        m.key ≤ x) ∧
      ((LazyBinomialHeap.empty.insert 3).insert 9).size =
        (forestKeys ((LazyBinomialHeap.empty.insert 3).insert 9).roots).length ∧
      ((LazyBinomialHeap.empty.insert 3).insert 9).minimum = some m.key ∧
      ∀ fuel l h', drain fuel ((LazyBinomialHeap.empty.insert 3).insert 9) =
          some (l, h') → ∀ x ∈ l, m.key ≤ x :=
  cached_min_is_least_root
    (Reach.insert 9 (Reach.insert 3 Reach.empty)) (by decide)

open LazyBinomialHeap in
/-- C5 counterexample: if sequences may keep using a merged-away heap, the
claim fails: merge away `b = {2}`, then merge `{5}` into the stale `b`; the
resulting heap is non-empty but its cached `min` still points at the node
holding 2, which now lives in the other heap's forest and is not one of this
heap's roots. -/
theorem cached_min_not_root_after_reuse :
    ReachFree (merge (merge (LazyBinomialHeap.empty.insert 1)
        (LazyBinomialHeap.empty.insert 2)).2
      (LazyBinomialHeap.empty.insert 5)).1 ∧
    (merge (merge (LazyBinomialHeap.empty.insert 1)
        (LazyBinomialHeap.empty.insert 2)).2
      (LazyBinomialHeap.empty.insert 5)).1.size ≠ 0 ∧
    ∀ m, (merge (merge (LazyBinomialHeap.empty.insert 1)
        (LazyBinomialHeap.empty.insert 2)).2
      (LazyBinomialHeap.empty.insert 5)).1.min = some m →
      m ∉ (merge (merge (LazyBinomialHeap.empty.insert 1)
        (LazyBinomialHeap.empty.insert 2)).2
      (LazyBinomialHeap.empty.insert 5)).1.roots := by
  refine ⟨?_, by decide, ?_⟩
  · exact ReachFree.mergeTarget
      (ReachFree.mergeSource (ReachFree.insert 1 ReachFree.empty)
        (ReachFree.insert 2 ReachFree.empty))
      (ReachFree.insert 5 ReachFree.empty)
  · intro m hm hmem
    have hm' : m = Node.mk 2 0 0 [] := (Option.some.inj hm).symm
    have hroots : (merge (merge (LazyBinomialHeap.empty.insert 1)
        (LazyBinomialHeap.empty.insert 2)).2
      (LazyBinomialHeap.empty.insert 5)).1.roots = [Node.mk 5 0 0 []] := rfl
    rw [hroots, hm'] at hmem
    rcases List.mem_singleton.mp hmem with heq
    have h25 : (2 : Int) = 5 := congrArg Node.key heq
    omega

open LazyBinomialHeap in
/-- C6 (amended): `minimum` and `extract_min` on a zero-element heap
satisfying the invariant (in particular any zero-element heap that is not a
merged-away source: its cached `min` is null) both report absent, never
fault, and `extract_min` leaves the state — in particular `size` —
unchanged.  (`extract_min` does so on *every* zero-element heap; `minimum`
needs the null cached `min`, see the counterexample.) -/
theorem empty_heap_queries_absent {h : LazyBinomialHeap}
    (hinv : LazyBinomialHeap.Inv h) (hsz : h.size = 0) :
    h.minimum = none ∧ h.extract_min = some (none, h) := by
  have hroots : h.roots = [] := by
    by_contra hne
    have := forestKeys_length_pos hne
    rw [← hinv.size_eq] at this
    omega
  constructor
  · rw [minimum, hinv.min_none hroots]
    rfl
  · exact extract_min_empty hroots

open LazyBinomialHeap in
theorem empty_heap_queries_absent_witness :
    LazyBinomialHeap.empty.minimum = none ∧
    LazyBinomialHeap.empty.extract_min =
      some (none, LazyBinomialHeap.empty) :=
  empty_heap_queries_absent inv_empty rfl

open LazyBinomialHeap in
/-- C6 counterexample: a merged-away source heap has zero elements, yet its
`minimum()` is not absent — `merge` does not clear the source's cached
`min`, which still reports the pre-merge minimum 7. -/
theorem empty_heap_minimum_stale :
    ReachFree (merge (LazyBinomialHeap.empty.insert 5)
      (LazyBinomialHeap.empty.insert 7)).2 ∧
    (merge (LazyBinomialHeap.empty.insert 5)
      (LazyBinomialHeap.empty.insert 7)).2.size = 0 ∧
    (merge (LazyBinomialHeap.empty.insert 5)
      (LazyBinomialHeap.empty.insert 7)).2.minimum = some 7 := by
  refine ⟨?_, rfl, rfl⟩
  exact ReachFree.mergeSource (ReachFree.insert 5 ReachFree.empty)
    (ReachFree.insert 7 ReachFree.empty)

open LazyBinomialHeap in
/-- C7: `insert` adds exactly one element: `size` grows by one, the key
multiset grows by exactly the new key (nothing is removed), the new node is
a degree-0 childless singleton appended at the tail end of the root list,
and `minimum()` afterwards reports the new key exactly when the heap was
empty or the new key beats the cached minimum. -/
theorem insert_adds_one_element {h : LazyBinomialHeap}
    (hinv : LazyBinomialHeap.Inv h) (k : Int) :
    (h.insert k).size = h.size + 1 ∧
    (h.insert k).roots = h.roots ++ [Node.mk k 0 0 []] ∧
    forestKeys (h.insert k).roots = forestKeys h.roots ++ [k] ∧
    (h.size = 0 → (h.insert k).minimum = some k) ∧
    (h.size ≠ 0 → ∃ m0, h.minimum = some m0 ∧
      (h.insert k).minimum = some (if k < m0 then k else m0)) := by
  obtain ⟨hinv', hroots, hsize⟩ := insert_spec hinv k
  refine ⟨hsize, hroots, ?_, ?_, ?_⟩
  · rw [hroots, forestKeys_append, forestKeys_cons, forestKeys_nil,
      List.append_nil, Node.keys_mk]
    simp
  · intro hsz0
    have heq : h.insert k =
        ⟨[Node.mk k 0 0 []], some (Node.mk k 0 0 []), h.size + 1⟩ := by
      rw [LazyBinomialHeap.insert, if_pos (by omega)]
    rw [heq, minimum]
    rfl
  · intro hszne
    have hroots_ne : h.roots ≠ [] := by
      intro hcon
      rw [hinv.size_eq, hcon] at hszne
      exact hszne rfl
    obtain ⟨m, hm, _, _⟩ := hinv.min_some hroots_ne
    refine ⟨m.key, by rw [minimum, hm]; rfl, ?_⟩
    have heq : h.insert k =
        ⟨h.roots ++ [Node.mk k 0 0 []],
         if k < m.key then some (Node.mk k 0 0 []) else some m,
         h.size + 1⟩ := by
      rw [LazyBinomialHeap.insert, if_neg (by omega), hm]
    rw [heq, minimum]
    by_cases hk : k < m.key
    · rw [if_pos hk, if_pos hk]
      rfl
    · rw [if_neg hk, if_neg hk]
      rfl

open LazyBinomialHeap in
theorem insert_adds_one_element_witness :
    (LazyBinomialHeap.empty.insert 5).size = LazyBinomialHeap.empty.size + 1 ∧
    (LazyBinomialHeap.empty.insert 5).roots =
      LazyBinomialHeap.empty.roots ++ [Node.mk 5 0 0 []] ∧
    forestKeys (LazyBinomialHeap.empty.insert 5).roots =
      forestKeys LazyBinomialHeap.empty.roots ++ [5] ∧
    (LazyBinomialHeap.empty.size = 0 →
      (LazyBinomialHeap.empty.insert 5).minimum = some 5) ∧
    (LazyBinomialHeap.empty.size ≠ 0 → ∃ m0,
      LazyBinomialHeap.empty.minimum = some m0 ∧
      (LazyBinomialHeap.empty.insert 5).minimum =
        some (if 5 < m0 then 5 else m0)) :=
  insert_adds_one_element inv_empty 5

/-- C8: `link(a, b)` keeps `a` as the winner exactly when `a.key ≤ b.key`
(ties keep `a`) and `b` otherwise; the loser becomes the winner's new first
child (in the LCRS encoding, prepending to the child list is precisely
setting the loser's sibling pointer to the winner's previous first child);
the winner's degree becomes `d + 1`; and when both inputs are heap-ordered
binomial trees of equal degree `d`, the result is a heap-ordered binomial
tree of degree `d + 1` with `2 ^ (d + 1)` nodes. -/
theorem link_wins_smaller_key (a b : Node) (d : Nat)
    (hda : a.degree = d) (hdb : b.degree = d)
    (hba : IsBinomial a) (hbb : IsBinomial b)
    (hha : HeapOrd a) (hhb : HeapOrd b) :
    (link a b = if a.key ≤ b.key
      then Node.mk a.key a.id (d + 1) (b :: a.children)
      else Node.mk b.key b.id (d + 1) (a :: b.children)) ∧
    (link a b).degree = d + 1 ∧
    IsBinomial (link a b) ∧ HeapOrd (link a b) ∧
    (link a b).keys.length = 2 ^ (d + 1) := by
  have hd : a.degree = b.degree := by omega
  have hgood : Good (link a b) := link_good ⟨hba, hha⟩ ⟨hbb, hhb⟩ hd
  have hdeg : (link a b).degree = d + 1 := by
    rw [link_degree hd, hda]
  refine ⟨?_, hdeg, hgood.1, hgood.2, ?_⟩
  · rw [link]
    by_cases hk : a.key > b.key
    · rw [if_pos hk, if_neg (by omega), hdb]
    · rw [if_neg hk, if_pos (by omega), hda]
  · rw [hgood.1.keys_length, hdeg]

theorem link_wins_smaller_key_witness :
    (link (Node.mk 1 0 0 []) (Node.mk 2 1 0 []) = if (1 : Int) ≤ 2
      then Node.mk 1 0 (0 + 1) (Node.mk 2 1 0 [] :: [])
      else Node.mk 2 1 (0 + 1) (Node.mk 1 0 0 [] :: [])) ∧
    (link (Node.mk 1 0 0 []) (Node.mk 2 1 0 [])).degree = 0 + 1 ∧
    IsBinomial (link (Node.mk 1 0 0 []) (Node.mk 2 1 0 [])) ∧
    HeapOrd (link (Node.mk 1 0 0 []) (Node.mk 2 1 0 [])) ∧
    (link (Node.mk 1 0 0 []) (Node.mk 2 1 0 [])).keys.length = 2 ^ (0 + 1) :=
  link_wins_smaller_key (Node.mk 1 0 0 []) (Node.mk 2 1 0 []) 0 rfl rfl
    (IsBinomial.mk _ _ _ _ rfl (by simp) (by simp))
    (IsBinomial.mk _ _ _ _ rfl (by simp) (by simp))
    (HeapOrd.mk _ _ _ _ (by simp) (by simp))
    (HeapOrd.mk _ _ _ _ (by simp) (by simp))

open LazyBinomialHeap in
/-- C10: extracting from a one-element heap returns its single key and
leaves exactly the state of a freshly constructed empty heap (`head`,
`tail`, `min` all null and `size` zero), so every subsequent operation
behaves as on a new heap. -/
theorem extract_min_singleton_resets {h : LazyBinomialHeap}
    (hinv : LazyBinomialHeap.Inv h) (hsz : h.size = 1) :
    ∃ k, forestKeys h.roots = [k] ∧
      h.extract_min = some (some k, LazyBinomialHeap.empty) := by
  have hlen : (forestKeys h.roots).length = 1 := by rw [← hinv.size_eq, hsz]
  have hne : h.roots ≠ [] := by
    intro hcon
    rw [hcon] at hlen
    simp [forestKeys] at hlen
  obtain ⟨k, h', hext, hinv', _, _, hperm, hsz'⟩ :=
    extract_min_nonempty hinv hne
  have hlen' : (forestKeys h'.roots).length = 0 := by
    have := hperm.length_eq
    rw [hlen, List.length_cons] at this
    omega
  have hroots' : h'.roots = [] := by
    by_contra hne'
    have := forestKeys_length_pos hne'
    omega
  have hempty : h' = LazyBinomialHeap.empty := empty_state hinv' hroots'
  refine ⟨k, ?_, by rw [← hempty]; exact hext⟩
  have : (forestKeys h.roots).Perm [k] := by
    have := hperm
    rw [hroots'] at this
    simpa using this
  exact List.perm_singleton.mp this

open LazyBinomialHeap in
theorem extract_min_singleton_resets_witness :
    ∃ k, forestKeys (LazyBinomialHeap.empty.insert 9).roots = [k] ∧
      (LazyBinomialHeap.empty.insert 9).extract_min =
        some (some k, LazyBinomialHeap.empty) :=
  extract_min_singleton_resets (insert_spec inv_empty 9).1 rfl

open LazyBinomialHeap in
/-- C3: on any reachable heap, at consolidation time (after `remove_min`
has removed the minimal root, with `n = size ≥ 1` elements remaining and the
removed node's children spliced onto the root list), every root's degree is
strictly below `ceil(log2(n)) + 1` — the bucket-array length allocated by
`count_sort` — and the whole consolidation, including every `count[degree]`
read and every `count[i + 1]` carry placement, stays in bounds (`consolidate`
never hits the out-of-bounds `none`). -/
theorem consolidation_accesses_in_bounds {h : LazyBinomialHeap}
    (hr : LazyBinomialHeap.Reach h) {m : Node} {h1 : LazyBinomialHeap}
    (hrem : h.remove_min = some (m, h1)) (_hn : 1 ≤ h1.size) :
    (∀ r ∈ h1.roots ++ m.children, r.degree < Nat.clog 2 h1.size + 1) ∧
    (LazyBinomialHeap.consolidate ⟨h1.roots ++ m.children, h1.min, h1.size⟩).isSome := by
  have hinv := hr.inv
  cases hrm : removeMinRoots h.roots with
  | none => simp [remove_min, hrm] at hrem
  | some p =>
      obtain ⟨m', rest⟩ := p
      simp only [remove_min, hrm, Option.some.injEq, Prod.mk.injEq] at hrem
      obtain ⟨hm_eq, hh1⟩ := hrem
      obtain ⟨hm_mem, hm_le, hperm_roots, hrest_sub⟩ := removeMinRoots_spec hrm
      rw [hm_eq] at hm_mem hm_le hperm_roots
      have hgood_m := hinv.good m hm_mem
      have hroots1 : h1.roots = rest := by rw [← hh1]
      have hsiz1 : h1.size = h.size - 1 := by rw [← hh1]
      have hgood2 : ∀ r ∈ h1.roots ++ m.children, Good r := by
        rw [hroots1]
        intro r hr'
        rcases List.mem_append.mp hr' with h' | h'
        · exact hinv.good r (hrest_sub r h')
        · exact hgood_m.childrenGood r h'
      have hkeysperm : (forestKeys h.roots).Perm
          (m.key :: forestKeys (rest ++ m.children)) := by
        refine (forestKeys_perm hperm_roots).trans ?_
        rw [forestKeys_cons, Node.keys_eq_cons, List.cons_append]
        refine List.Perm.cons _ ?_
        rw [forestKeys_append]
        exact List.perm_append_comm
      have hsize2 : (forestKeys (h1.roots ++ m.children)).length = h1.size := by
        have hlen := hkeysperm.length_eq
        rw [List.length_cons] at hlen
        rw [hroots1, hsiz1]
        rw [hinv.size_eq]
        omega
      refine ⟨root_degree_lt hgood2 hsize2, ?_⟩
      by_cases hempty2 : h1.roots ++ m.children = []
      · have : consolidateRoots (h1.roots ++ m.children) h1.size =
            some (h1.roots ++ m.children) := by
          rw [hempty2]
          rfl
        rw [consolidate]
        simp only [this]
        rfl
      · obtain ⟨out, hcons, _, _, _, _⟩ :=
          consolidateRoots_spec (h1.roots ++ m.children) h1.size hempty2
            hgood2 hsize2
        rw [consolidate]
        simp only [hcons]
        rfl

open LazyBinomialHeap in
theorem consolidation_accesses_in_bounds_witness :
    (∀ r ∈ (⟨[Node.mk 2 0 0 []], some (Node.mk 1 0 0 []), 1⟩ :
        LazyBinomialHeap).roots ++ (Node.mk 1 0 0 []).children,
      r.degree < Nat.clog 2 (⟨[Node.mk 2 0 0 []],
        some (Node.mk 1 0 0 []), 1⟩ : LazyBinomialHeap).size + 1) ∧
    (LazyBinomialHeap.consolidate
      ⟨(⟨[Node.mk 2 0 0 []], some (Node.mk 1 0 0 []), 1⟩ :
          LazyBinomialHeap).roots ++ (Node.mk 1 0 0 []).children,
        (⟨[Node.mk 2 0 0 []], some (Node.mk 1 0 0 []), 1⟩ :
          LazyBinomialHeap).min,
        (⟨[Node.mk 2 0 0 []], some (Node.mk 1 0 0 []), 1⟩ :
          LazyBinomialHeap).size⟩).isSome :=
  consolidation_accesses_in_bounds
    (LazyBinomialHeap.Reach.insert 2
      (LazyBinomialHeap.Reach.insert 1 LazyBinomialHeap.Reach.empty))
    rfl (by decide)

open LazyBinomialHeap in
/-- C4: after `consolidate()` returns on a (well-formed) heap with `n ≥ 1`
remaining elements — the invariant state in which `extract_min` invokes it —
the roots have pairwise distinct degrees appearing in strictly increasing
order from head to tail, and they number at most `ceil(log2(n + 1))`. -/
theorem consolidate_distinct_increasing_degrees {h : LazyBinomialHeap}
    (hgood : ∀ r ∈ h.roots, Good r) (hne : h.roots ≠ [])
    (hsize : h.size = (forestKeys h.roots).length) :
    ∃ h', h.consolidate = some h' ∧
      ((h'.roots.map Node.degree).Sorted (· < ·)) ∧
      (h'.roots.map Node.degree).Nodup ∧
      h'.roots.length ≤ Nat.clog 2 (h.size + 1) := by
  obtain ⟨out, hcons, _, _, hsorted, hcount⟩ :=
    consolidateRoots_spec h.roots h.size hne hgood hsize.symm
  refine ⟨⟨out, h.min, h.size⟩, ?_, hsorted, hsorted.nodup, hcount⟩
  rw [consolidate]
  simp only [hcons]

open LazyBinomialHeap in
theorem consolidate_distinct_increasing_degrees_witness :
    ∃ h', (LazyBinomialHeap.consolidate
        (merge (LazyBinomialHeap.empty.insert 1)
          (LazyBinomialHeap.empty.insert 2)).1) = some h' ∧
      ((h'.roots.map Node.degree).Sorted (· < ·)) ∧
      (h'.roots.map Node.degree).Nodup ∧
      h'.roots.length ≤ Nat.clog 2 ((merge (LazyBinomialHeap.empty.insert 1)
        (LazyBinomialHeap.empty.insert 2)).1.size + 1) :=
  consolidate_distinct_increasing_degrees
    (LazyBinomialHeap.Reach.merge
      (LazyBinomialHeap.Reach.insert 1 LazyBinomialHeap.Reach.empty)
      (LazyBinomialHeap.Reach.insert 2 LazyBinomialHeap.Reach.empty)).inv.good
    (List.cons_ne_nil _ _) (by decide)

/-! ### The older backend (`heap.h`): invariant and operation facts -/

theorem Node.entries_eq_cons (n : Node) :
    n.entries = (n.id, n.key) :: forestEntries n.children := by
  cases n with
  | mk k i d cs => rw [Node.entries_mk]; rfl

theorem entry_mem_forestEntries {r : Node} {l : List Node} (hr : r ∈ l) :
    (r.id, r.key) ∈ forestEntries l := by
  obtain ⟨s, t, rfl⟩ := List.append_of_mem hr
  rw [forestEntries_append, forestEntries_cons, Node.entries_eq_cons]
  exact List.mem_append_right _ (List.mem_cons_self _ _)

theorem snd_mem_forestKeys {p : Nat × Int} {l : List Node}
    (hp : p ∈ forestEntries l) : p.2 ∈ forestKeys l := by
  rw [forestKeys_eq_map_entries]
  exact List.mem_map_of_mem _ hp

namespace MergeableHeap

/-- The data-structure invariant of the `heap.h` backend between public
operations (on heaps that have not been merged away).  The cached `min`
pointer is a pair (node identity, that node's key); unlike the lazy backend
it may designate an interior node, so its entry is only required to occur
somewhere in the forest. -/
structure Inv (h : MergeableHeap) : Prop where
  good : ∀ r ∈ h.roots, Good r
  size_eq : h.size = (forestKeys h.roots).length
  min_none : h.roots = [] → h.min = none
  min_some : h.roots ≠ [] → ∃ i0 k0, h.min = some (i0, k0) ∧
    (i0, k0) ∈ forestEntries h.roots ∧ ∀ x ∈ forestKeys h.roots, k0 ≤ x

theorem mh_inv_empty : Inv empty :=
  ⟨by simp [empty], by simp [empty], fun _ => rfl, fun h => absurd rfl h⟩

theorem mh_insert_spec {h : MergeableHeap} (hinv : Inv h) (ctr : Nat) (k : Int) :
    (insert ctr h k).1 = ctr + 1 ∧
    Inv (insert ctr h k).2 ∧
    (insert ctr h k).2.roots = Node.mk k ctr 0 [] :: h.roots ∧
    (insert ctr h k).2.size = h.size + 1 ∧
    forestEntries (insert ctr h k).2.roots = (ctr, k) :: forestEntries h.roots := by
  have hroots : (insert ctr h k).2.roots = Node.mk k ctr 0 [] :: h.roots := rfl
  have hentries : forestEntries (insert ctr h k).2.roots =
      (ctr, k) :: forestEntries h.roots := by
    rw [hroots, forestEntries_cons, Node.entries_eq_cons]
    rfl
  have hkeys : forestKeys (insert ctr h k).2.roots = k :: forestKeys h.roots := by
    rw [forestKeys_eq_map_entries, hentries, List.map_cons,
      ← forestKeys_eq_map_entries]
  refine ⟨rfl, ?_, hroots, rfl, hentries⟩
  refine ⟨?_, ?_, ?_, ?_⟩
  · rw [hroots]
    intro r hr
    rcases List.mem_cons.mp hr with heq | hmem
    · rw [heq]
      exact LazyBinomialHeap.singleton_good k ctr
    · exact hinv.good r hmem
  · have : (insert ctr h k).2.size = h.size + 1 := rfl
    rw [this, hkeys, List.length_cons, hinv.size_eq]
  · intro hcon
    rw [hroots] at hcon
    exact absurd hcon (List.cons_ne_nil _ _)
  · intro _
    have hmin : (insert ctr h k).2.min =
        (match h.min with
         | none => some (ctr, k)
         | some (i, mk0) => if k < mk0 then some (ctr, k) else some (i, mk0)) := rfl
    by_cases hre : h.roots = []
    · have hmn := hinv.min_none hre
      refine ⟨ctr, k, by rw [hmin, hmn], ?_, ?_⟩
      · rw [hentries]
        exact List.mem_cons_self _ _
      · intro x hx
        rw [hkeys] at hx
        rcases List.mem_cons.mp hx with heq | hmem
        · rw [heq]
        · rw [hre] at hmem
          simp [forestKeys] at hmem
    · obtain ⟨i0, k0, hm, hmem, hle⟩ := hinv.min_some hre
      by_cases hk : k < k0
      · refine ⟨ctr, k, by rw [hmin, hm]; simp [hk], ?_, ?_⟩
        · rw [hentries]
          exact List.mem_cons_self _ _
        · intro x hx
          rw [hkeys] at hx
          rcases List.mem_cons.mp hx with heq | hmem'
          · rw [heq]
          · exact le_trans (le_of_lt hk) (hle x hmem')
      · refine ⟨i0, k0, by rw [hmin, hm]; simp [hk], ?_, ?_⟩
        · rw [hentries]
          exact List.mem_cons_of_mem _ hmem
        · intro x hx
          rw [hkeys] at hx
          rcases List.mem_cons.mp hx with heq | hmem'
          · rw [heq]
            exact not_lt.mp hk
          · exact hle x hmem'

theorem mh_merge_roots (a b : MergeableHeap) :
    (merge a b).1.roots = a.roots ++ b.roots := by
  rw [merge]
  by_cases ha : a.roots.isEmpty
  · simp only [if_pos ha]
    rw [List.isEmpty_iff.mp ha]
    rfl
  · by_cases hb : b.roots.isEmpty
    · simp only [if_neg ha, if_pos hb]
      rw [List.isEmpty_iff.mp hb]
      simp
    · simp only [if_neg ha, if_neg hb]

theorem mh_merge_spec {a b : MergeableHeap} (ha : Inv a) (hb : Inv b) :
    Inv (merge a b).1 ∧
    (merge a b).1.roots = a.roots ++ b.roots ∧
    (merge a b).1.size = a.size + b.size ∧
    (merge a b).2 = ⟨[], b.min, 0⟩ := by
  refine ⟨?_, mh_merge_roots a b, rfl, rfl⟩
  have hroots := mh_merge_roots a b
  have hmin : (merge a b).1.min =
      (match a.min, b.min with
       | none, bm => bm
       | some am, some bm => if bm.2 < am.2 then some bm else some am
       | some am, none => some am) := rfl
  refine ⟨?_, ?_, ?_, ?_⟩
  · intro r hr
    rw [hroots] at hr
    rcases List.mem_append.mp hr with h | h
    · exact ha.good r h
    · exact hb.good r h
  · have : (merge a b).1.size = a.size + b.size := rfl
    rw [this, hroots, forestKeys_append, List.length_append,
      ha.size_eq, hb.size_eq]
  · intro hcon
    rw [hroots] at hcon
    have hae : a.roots = [] := by
      cases List.append_eq_nil.mp hcon; assumption
    have hbe : b.roots = [] := by
      cases List.append_eq_nil.mp hcon; assumption
    rw [hmin, ha.min_none hae, hb.min_none hbe]
  · intro hne
    rw [hroots] at hne ⊢
    by_cases hae : a.roots = []
    · have hbe : b.roots ≠ [] := by
        intro hcon; exact hne (by rw [hae, hcon]; rfl)
      obtain ⟨i0, k0, hmb, hmem, hle⟩ := hb.min_some hbe
      refine ⟨i0, k0, by rw [hmin, ha.min_none hae, hmb], ?_, ?_⟩
      · rw [forestEntries_append]
        exact List.mem_append_right _ hmem
      · intro x hx
        rw [forestKeys_append] at hx
        rcases List.mem_append.mp hx with h | h
        · rw [hae] at h; simp [forestKeys] at h
        · exact hle x h
    · obtain ⟨ia, ka, hma, hmema, hlea⟩ := ha.min_some hae
      by_cases hbe : b.roots = []
      · refine ⟨ia, ka, by rw [hmin, hma, hb.min_none hbe], ?_, ?_⟩
        · rw [forestEntries_append]
          exact List.mem_append_left _ hmema
        · intro x hx
          rw [forestKeys_append] at hx
          rcases List.mem_append.mp hx with h | h
          · exact hlea x h
          · rw [hbe] at h; simp [forestKeys] at h
      · obtain ⟨ib, kb, hmb, hmemb, hleb⟩ := hb.min_some hbe
        by_cases hcmp : kb < ka
        · refine ⟨ib, kb, by rw [hmin, hma, hmb]; simp [hcmp], ?_, ?_⟩
          · rw [forestEntries_append]
            exact List.mem_append_right _ hmemb
          · intro x hx
            rw [forestKeys_append] at hx
            rcases List.mem_append.mp hx with h | h
            · exact le_trans (le_of_lt hcmp) (hlea x h)
            · exact hleb x h
        · refine ⟨ia, ka, by rw [hmin, hma, hmb]; simp [hcmp], ?_, ?_⟩
          · rw [forestEntries_append]
            exact List.mem_append_left _ hmema
          · intro x hx
            rw [forestKeys_append] at hx
            rcases List.mem_append.mp hx with h | h
            · exact hlea x h
            · exact le_trans (not_lt.mp hcmp) (hleb x h)

theorem mh_update_min_spec (roots : List Node) (mn : Option (Nat × Int)) (sz : Nat)
    (hgood : ∀ r ∈ roots, Good r) :
    (update_min ⟨roots, mn, sz⟩).roots = roots ∧
    (update_min ⟨roots, mn, sz⟩).size = sz ∧
    (roots = [] → (update_min ⟨roots, mn, sz⟩).min = none) ∧
    (roots ≠ [] → ∃ i0 k0, (update_min ⟨roots, mn, sz⟩).min = some (i0, k0) ∧
      (i0, k0) ∈ forestEntries roots ∧ ∀ x ∈ forestKeys roots, k0 ≤ x) := by
  cases roots with
  | nil => exact ⟨rfl, rfl, fun _ => rfl, fun h => absurd rfl h⟩
  | cons a l =>
      refine ⟨rfl, rfl, fun h => by simp at h, fun _ => ?_⟩
      refine ⟨(scanMin a l).id, (scanMin a l).key, rfl,
        entry_mem_forestEntries (scanMin_mem a l), ?_⟩
      exact min_root_le_forest hgood (scanMin_le a l)

end MergeableHeap

namespace MergeableHeap

theorem mh_extract_min_empty {h : MergeableHeap} (hroots : h.roots = []) :
    h.extract_min = some (none, h) := by
  simp only [extract_min, remove_min, hroots, removeMinRoots]

/-- Full specification of the `heap.h` `extract_min` on a non-empty
well-formed heap: it succeeds, returns the least stored key, removes exactly
one entry holding it, decrements `size`, and re-establishes the invariant —
whether or not the conditional `min == min_node` rescan fires. -/
theorem extract_min_spec {h : MergeableHeap} (hinv : Inv h)
    (hne : h.roots ≠ []) :
    ∃ k h', h.extract_min = some (some k, h') ∧ Inv h' ∧
      k ∈ forestKeys h.roots ∧ (∀ x ∈ forestKeys h.roots, k ≤ x) ∧
      (∃ i1, (forestEntries h.roots).Perm ((i1, k) :: forestEntries h'.roots)) ∧
      h'.size = h.size - 1 := by
  obtain ⟨m, rest, hrm⟩ : ∃ m rest, removeMinRoots h.roots = some (m, rest) := by
    cases hroots : h.roots with
    | nil => exact absurd hroots hne
    | cons a l => exact ⟨_, _, rfl⟩
  obtain ⟨hm_mem, hm_le, hperm_roots, hrest_sub⟩ := removeMinRoots_spec hrm
  have hgood_m := hinv.good m hm_mem
  have hgood2 : ∀ r ∈ m.children ++ rest, Good r := by
    intro r hr
    rcases List.mem_append.mp hr with h' | h'
    · exact hgood_m.childrenGood r h'
    · exact hinv.good r (hrest_sub r h')
  have hfe : (forestEntries h.roots).Perm
      ((m.id, m.key) :: forestEntries (m.children ++ rest)) := by
    refine (forestEntries_perm hperm_roots).trans ?_
    rw [forestEntries_cons, Node.entries_eq_cons, forestEntries_append,
      List.cons_append]
  have hfk : (forestKeys h.roots).Perm
      (m.key :: forestKeys (m.children ++ rest)) := by
    have := hfe.map Prod.snd
    rw [← forestKeys_eq_map_entries, List.map_cons, ← forestKeys_eq_map_entries]
      at this
    exact this
  have hkmem : m.key ∈ forestKeys h.roots :=
    mem_forestKeys_of_mem hm_mem m.key (Node.key_mem_keys m)
  have hkle : ∀ x ∈ forestKeys h.roots, m.key ≤ x :=
    min_root_le_forest hinv.good hm_le
  have hsize2 : (forestKeys (m.children ++ rest)).length = h.size - 1 := by
    have hlen := hfk.length_eq
    rw [List.length_cons] at hlen
    rw [hinv.size_eq]
    omega
  obtain ⟨i0, k0, hm0, hmem0, hle0⟩ := hinv.min_some hne
  have hk0 : k0 = m.key := by
    refine le_antisymm (hle0 m.key hkmem) ?_
    exact hkle k0 (snd_mem_forestKeys hmem0)
  by_cases hempty2 : m.children ++ rest = []
  · have hi0 : i0 = m.id := by
      have hmem' := hfe.subset hmem0
      rw [hempty2] at hmem'
      simp only [forestEntries_nil] at hmem'
      rcases List.mem_singleton.mp hmem' with heq
      exact (Prod.mk.injEq _ _ _ _ ▸ heq).1
    have hcons : consolidateRoots (m.children ++ rest) (h.size - 1) =
        some (m.children ++ rest) := by
      rw [hempty2]
      rfl
    have hext : h.extract_min =
        some (some m.key, update_min ⟨m.children ++ rest, h.min, h.size - 1⟩) := by
      simp only [extract_min, remove_min, hrm, hcons, hm0, if_pos hi0]
    have hupd : update_min ⟨m.children ++ rest, h.min, h.size - 1⟩ =
        ⟨[], none, h.size - 1⟩ := by
      rw [hempty2]
      rfl
    have hsz0 : h.size - 1 = 0 := by
      rw [← hsize2, hempty2]
      rfl
    refine ⟨m.key, _, hext, ?_, hkmem, hkle, ?_, ?_⟩
    · rw [hupd]
      refine ⟨?_, ?_, ?_, ?_⟩
      · intro r hr
        simp at hr
      · simpa [forestKeys] using hsz0
      · intro _
        rfl
      · intro hcon
        exact absurd rfl hcon
    · refine ⟨m.id, ?_⟩
      rw [hupd]
      refine hfe.trans ?_
      rw [hempty2]
    · rw [hupd]
  · obtain ⟨out, hcons, hperm_e, hgood_out, _, _⟩ :=
      consolidateRoots_spec (m.children ++ rest) (h.size - 1) hempty2
        hgood2 hsize2
    have hkp2 : (forestKeys out).Perm (forestKeys (m.children ++ rest)) :=
      keys_perm_of_entries_perm hperm_e
    have hone : out ≠ [] := by
      intro hcon
      have hlen := hkp2.length_eq
      rw [hcon, forestKeys_nil, List.length_nil] at hlen
      have hpos := forestKeys_length_pos hempty2
      omega
    by_cases hii : i0 = m.id
    · -- the cached min is the removed node: the rescan fires
      have hext : h.extract_min =
          some (some m.key, update_min ⟨out, h.min, h.size - 1⟩) := by
        simp only [extract_min, remove_min, hrm, hcons, hm0, if_pos hii]
      obtain ⟨hur, hus, _, hums⟩ := mh_update_min_spec out h.min (h.size - 1) hgood_out
      obtain ⟨i1, k1, hm1, hmem1, hle1⟩ := hums hone
      refine ⟨m.key, update_min ⟨out, h.min, h.size - 1⟩, hext, ?_, hkmem, hkle,
        ?_, ?_⟩
      · refine ⟨?_, ?_, ?_, ?_⟩
        · rw [hur]
          exact hgood_out
        · rw [hur, hus, ← hsize2]
          exact hkp2.length_eq.symm
        · intro hcon
          rw [hur] at hcon
          exact absurd hcon hone
        · intro _
          rw [hur]
          exact ⟨i1, k1, hm1, hmem1, hle1⟩
      · refine ⟨m.id, ?_⟩
        rw [hur]
        exact hfe.trans (List.Perm.cons _ hperm_e.symm)
      · rw [hus]
    · -- the cached min is a different node: no rescan, the stale pair stays
      have hext : h.extract_min =
          some (some m.key, ⟨out, some (i0, k0), h.size - 1⟩) := by
        simp only [extract_min, remove_min, hrm, hcons, hm0, if_neg hii]
      have hmem_out : (i0, k0) ∈ forestEntries out := by
        have hmem' := hfe.subset hmem0
        rcases List.mem_cons.mp hmem' with heq | hmem''
        · exact absurd (Prod.mk.injEq _ _ _ _ ▸ heq).1 hii
        · exact hperm_e.symm.subset hmem''
      refine ⟨m.key, ⟨out, some (i0, k0), h.size - 1⟩, hext, ?_, hkmem, hkle,
        ?_, ?_⟩
      · refine ⟨?_, ?_, ?_, ?_⟩
        · exact hgood_out
        · have : (⟨out, some (i0, k0), h.size - 1⟩ : MergeableHeap).size =
              h.size - 1 := rfl
          rw [this, ← hsize2]
          exact hkp2.length_eq.symm
        · intro hcon
          exact absurd hcon hone
        · intro _
          refine ⟨i0, k0, rfl, hmem_out, ?_⟩
          intro x hx
          have hx2 : x ∈ forestKeys (m.children ++ rest) := hkp2.subset hx
          have hx3 : x ∈ forestKeys h.roots :=
            hfk.symm.subset (List.mem_cons_of_mem _ hx2)
          exact hle0 x hx3
      · refine ⟨m.id, ?_⟩
        exact hfe.trans (List.Perm.cons _ hperm_e.symm)
      · rfl

end MergeableHeap

/-! ### Backend equivalence: the operation language

Sequences of public operations act on a pool of heaps addressed by natural
numbers.  `runLazy` interprets a sequence over `lazy.h` heaps; `runMergeable`
interprets it over `heap.h` heaps, threading the allocation counter that
models the addresses handed out for new nodes.  Both collect the values
returned by the `minimum` and `extract_min` calls, and fail (`none`) if any
`extract_min` hits an out-of-bounds consolidation access. -/

/-- One public heap operation over a pool of heaps addressed by index. -/
inductive Op : Type where
  | insert (idx : Nat) (k : Int)
  | minimum (idx : Nat)
  | extractMin (idx : Nat)
  | merge (tgt src : Nat)
deriving Repr

/-- Pointwise update of a pool. -/
def updf {α : Type} (s : Nat → α) (i : Nat) (v : α) : Nat → α :=
  fun j => if j = i then v else s j

theorem updf_self {α : Type} (s : Nat → α) (i : Nat) (v : α) :
    updf s i v i = v := by
  simp [updf]

theorem updf_ne {α : Type} (s : Nat → α) {i j : Nat} {v : α} (h : j ≠ i) :
    updf s i v j = s j := by
  simp [updf, h]

def runLazy : List Op → (Nat → LazyBinomialHeap) → Option (List (Option Int))
  | [], _ => some []
  | op :: ops, s =>
      match op with
      | .insert i k => runLazy ops (updf s i ((s i).insert k))
      | .minimum i =>
          match runLazy ops s with
          | none => none
          | some t => some ((s i).minimum :: t)
      | .extractMin i =>
          match (s i).extract_min with
          | none => none
          | some (r, h') =>
              match runLazy ops (updf s i h') with
              | none => none
              | some t => some (r :: t)
      | .merge i j =>
          runLazy ops (updf (updf s i (LazyBinomialHeap.merge (s i) (s j)).1) j
            (LazyBinomialHeap.merge (s i) (s j)).2)

def runMergeable : List Op → Nat → (Nat → MergeableHeap) →
    Option (List (Option Int))
  | [], _, _ => some []
  | op :: ops, ctr, s =>
      match op with
      | .insert i k =>
          runMergeable ops (MergeableHeap.insert ctr (s i) k).1
            (updf s i (MergeableHeap.insert ctr (s i) k).2)
      | .minimum i =>
          match runMergeable ops ctr s with
          | none => none
          | some t => some ((s i).minimum :: t)
      | .extractMin i =>
          match (s i).extract_min with
          | none => none
          | some (r, h') =>
              match runMergeable ops ctr (updf s i h') with
              | none => none
              | some t => some (r :: t)
      | .merge i j =>
          runMergeable ops ctr
            (updf (updf s i (MergeableHeap.merge (s i) (s j)).1) j
              (MergeableHeap.merge (s i) (s j)).2)

/-- Sequences respecting merge's ownership transfer: a merged-away source
index is dead and never referenced again, and a merge's two operands are
distinct heaps (`merge(h, h)` would alias in the C++). -/
def legal : List Op → List Nat → Bool
  | [], _ => true
  | op :: ops, dead =>
      match op with
      | .insert i _ => !(dead.contains i) && legal ops dead
      | .minimum i => !(dead.contains i) && legal ops dead
      | .extractMin i => !(dead.contains i) && legal ops dead
      | .merge i j => !(dead.contains i) && !(dead.contains j) && !(i == j) &&
          legal ops (j :: dead)

/-- On well-formed heaps holding the same key multiset, both backends'
`minimum` report the same value. -/
theorem minimum_outputs_eq {hl : LazyBinomialHeap} {hh : MergeableHeap}
    (hInvL : LazyBinomialHeap.Inv hl) (hInvH : MergeableHeap.Inv hh)
    (hperm : (forestKeys hl.roots).Perm (forestKeys hh.roots)) :
    hl.minimum = hh.minimum := by
  by_cases hne : hl.roots = []
  · have hH : hh.roots = [] := by
      by_contra hcon
      have hpos := forestKeys_length_pos hcon
      have hlen := hperm.length_eq
      rw [hne, forestKeys_nil, List.length_nil] at hlen
      omega
    rw [LazyBinomialHeap.minimum, hInvL.min_none hne,
      MergeableHeap.minimum, hInvH.min_none hH]
    rfl
  · have hH : hh.roots ≠ [] := by
      intro hcon
      have hpos := forestKeys_length_pos hne
      have hlen := hperm.length_eq
      rw [hcon, forestKeys_nil, List.length_nil] at hlen
      omega
    obtain ⟨m, hm, hmmem, hmle⟩ := hInvL.min_some hne
    obtain ⟨i0, k0, hm0, hmem0, hle0⟩ := hInvH.min_some hH
    have hkeq : m.key = k0 := by
      refine le_antisymm ?_ ?_
      · refine hmle k0 ?_
        exact hperm.symm.subset (snd_mem_forestKeys hmem0)
      · refine hle0 m.key ?_
        exact hperm.subset
          (mem_forestKeys_of_mem hmmem m.key (Node.key_mem_keys m))
    rw [LazyBinomialHeap.minimum, hm, MergeableHeap.minimum, hm0]
    simp [hkeq]

/-- The simulation invariant tying a lazy pool and a `heap.h` pool: alive
heaps are well-formed and hold identical key multisets, and the `heap.h`
node identities behave like addresses from a bump allocator — all below the
counter, duplicate-free within each heap, and disjoint across heaps (this is
what makes `min == min_node` faithfully modelled by identity equality). -/
structure SimInv (ctr : Nat) (dead : List Nat)
    (sL : Nat → LazyBinomialHeap) (sH : Nat → MergeableHeap) : Prop where
  invL : ∀ i, i ∉ dead → LazyBinomialHeap.Inv (sL i)
  invH : ∀ i, i ∉ dead → MergeableHeap.Inv (sH i)
  keys : ∀ i, i ∉ dead →
    (forestKeys (sL i).roots).Perm (forestKeys (sH i).roots)
  bound : ∀ i, ∀ p ∈ forestEntries ((sH i).roots), p.1 < ctr
  nodup : ∀ i, ((forestEntries ((sH i).roots)).map Prod.fst).Nodup
  disj : ∀ i j, i ≠ j → ∀ x ∈ (forestEntries ((sH i).roots)).map Prod.fst,
      x ∉ (forestEntries ((sH j).roots)).map Prod.fst

theorem runs_agree (ops : List Op) :
    ∀ (dead : List Nat) (ctr : Nat) (sL : Nat → LazyBinomialHeap)
      (sH : Nat → MergeableHeap),
    legal ops dead = true → SimInv ctr dead sL sH →
    ∃ t, runLazy ops sL = some t ∧ runMergeable ops ctr sH = some t := by
  induction ops with
  | nil =>
      intro dead ctr sL sH _ _
      exact ⟨[], rfl, rfl⟩
  | cons op ops ih =>
      intro dead ctr sL sH hlegal hsim
      cases op with
      | insert i k =>
          have hlg : ¬(i ∈ dead) ∧ legal ops dead = true := by
            simpa [legal, Bool.and_eq_true] using hlegal
          obtain ⟨hidead, hlegal'⟩ := hlg
          obtain ⟨hInvL', hrootsL', _⟩ :=
            LazyBinomialHeap.insert_spec (hsim.invL i hidead) k
          obtain ⟨_, hInvH', hrootsH', _, hfeH'⟩ :=
            MergeableHeap.mh_insert_spec (hsim.invH i hidead) ctr k
          have hkeysL' : forestKeys ((sL i).insert k).roots =
              forestKeys (sL i).roots ++ [k] := by
            rw [hrootsL', forestKeys_append, forestKeys_cons, forestKeys_nil,
              List.append_nil, Node.keys_mk]
            simp
          have hkeysH' : forestKeys ((MergeableHeap.insert ctr (sH i) k).2).roots =
              k :: forestKeys (sH i).roots := by
            rw [forestKeys_eq_map_entries, hfeH', List.map_cons,
              ← forestKeys_eq_map_entries]
          have hsim' : SimInv (ctr + 1) dead (updf sL i ((sL i).insert k))
              (updf sH i (MergeableHeap.insert ctr (sH i) k).2) := by
            refine ⟨?_, ?_, ?_, ?_, ?_, ?_⟩
            · intro j hj
              by_cases hji : j = i
              · rw [hji, updf_self]
                exact hInvL'
              · rw [updf_ne _ hji]
                exact hsim.invL j hj
            · intro j hj
              by_cases hji : j = i
              · rw [hji, updf_self]
                exact hInvH'
              · rw [updf_ne _ hji]
                exact hsim.invH j hj
            · intro j hj
              by_cases hji : j = i
              · rw [hji, updf_self, updf_self, hkeysL', hkeysH']
                exact (List.perm_append_singleton _ _).trans
                  ((hsim.keys i hidead).cons k)
              · rw [updf_ne _ hji, updf_ne _ hji]
                exact hsim.keys j hj
            · intro j p hp
              by_cases hji : j = i
              · rw [hji, updf_self, hfeH'] at hp
                rcases List.mem_cons.mp hp with heq | hmem
                · rw [heq]
                  omega
                · have := hsim.bound i p hmem
                  omega
              · rw [updf_ne _ hji] at hp
                have := hsim.bound j p hp
                omega
            · intro j
              by_cases hji : j = i
              · rw [hji, updf_self, hfeH', List.map_cons, List.nodup_cons]
                refine ⟨?_, hsim.nodup i⟩
                intro hcon
                rcases List.mem_map.mp hcon with ⟨p, hp, hpeq⟩
                have := hsim.bound i p hp
                omega
              · rw [updf_ne _ hji]
                exact hsim.nodup j
            · intro j j' hjj x hx
              by_cases hji : j = i
              · rw [hji, updf_self, hfeH', List.map_cons] at hx
                have hj'i : j' ≠ i := by rw [hji] at hjj; exact fun h => hjj h.symm
                rw [updf_ne _ hj'i]
                rcases List.mem_cons.mp hx with heq | hmem
                · rw [heq]
                  intro hcon
                  rcases List.mem_map.mp hcon with ⟨p, hp, hpeq⟩
                  have := hsim.bound j' p hp
                  omega
                · rw [← hji] at hmem
                  rw [hji] at hmem
                  exact hsim.disj i j' (by rw [← hji]; exact hjj) x hmem
              · rw [updf_ne _ hji] at hx
                by_cases hj'i : j' = i
                · rw [hj'i, updf_self, hfeH', List.map_cons]
                  intro hcon
                  rcases List.mem_cons.mp hcon with heq | hmem
                  · rcases List.mem_map.mp hx with ⟨p, hp, hpeq⟩
                    have := hsim.bound j p hp
                    omega
                  · exact hsim.disj j i (by rw [← hj'i]; exact hjj) x hx hmem
                · rw [updf_ne _ hj'i]
                  exact hsim.disj j j' hjj x hx
          obtain ⟨t, hL, hH⟩ := ih dead (ctr + 1) _ _ hlegal' hsim'
          exact ⟨t, by simpa [runLazy] using hL, by simpa [runMergeable] using hH⟩
      | minimum i =>
          have hlg : ¬(i ∈ dead) ∧ legal ops dead = true := by
            simpa [legal, Bool.and_eq_true] using hlegal
          obtain ⟨hidead, hlegal'⟩ := hlg
          obtain ⟨t, hL, hH⟩ := ih dead ctr sL sH hlegal' hsim
          refine ⟨(sL i).minimum :: t, ?_, ?_⟩
          · simp only [runLazy, hL]
          · simp only [runMergeable, hH]
            rw [minimum_outputs_eq (hsim.invL i hidead) (hsim.invH i hidead)
              (hsim.keys i hidead)]
      | extractMin i =>
          have hlg : ¬(i ∈ dead) ∧ legal ops dead = true := by
            simpa [legal, Bool.and_eq_true] using hlegal
          obtain ⟨hidead, hlegal'⟩ := hlg
          by_cases hne : (sL i).roots = []
          · have hneH : (sH i).roots = [] := by
              by_contra hcon
              have hpos := forestKeys_length_pos hcon
              have hlen := (hsim.keys i hidead).length_eq
              rw [hne, forestKeys_nil, List.length_nil] at hlen
              omega
            have hLfix : updf sL i (sL i) = sL :=
              funext (fun j => by by_cases hj : j = i <;> simp [updf, hj])
            have hHfix : updf sH i (sH i) = sH :=
              funext (fun j => by by_cases hj : j = i <;> simp [updf, hj])
            obtain ⟨t, hL, hH⟩ := ih dead ctr sL sH hlegal' hsim
            refine ⟨none :: t, ?_, ?_⟩
            · simp only [runLazy, LazyBinomialHeap.extract_min_empty hne,
                hLfix, hL]
            · simp only [runMergeable, MergeableHeap.mh_extract_min_empty hneH,
                hHfix, hH]
          · have hneH : (sH i).roots ≠ [] := by
              intro hcon
              have hpos := forestKeys_length_pos hne
              have hlen := (hsim.keys i hidead).length_eq
              rw [hcon, forestKeys_nil, List.length_nil] at hlen
              omega
            obtain ⟨kL, hL', hextL, hInvL', hkmemL, hkleL, hkpermL, _⟩ :=
              LazyBinomialHeap.extract_min_nonempty (hsim.invL i hidead) hne
            obtain ⟨kH, hH', hextH, hInvH', hkmemH, hkleH, ⟨i1, hfepermH⟩, _⟩ :=
              MergeableHeap.extract_min_spec (hsim.invH i hidead) hneH
            have hkeq : kL = kH := by
              refine le_antisymm ?_ ?_
              · exact hkleL kH ((hsim.keys i hidead).symm.subset hkmemH)
              · exact hkleH kL ((hsim.keys i hidead).subset hkmemL)
            have hkpermH' : (forestKeys (sH i).roots).Perm
                (kH :: forestKeys hH'.roots) := by
              have := hfepermH.map Prod.snd
              rw [← forestKeys_eq_map_entries, List.map_cons,
                ← forestKeys_eq_map_entries] at this
              exact this
            have hkeys' : (forestKeys hL'.roots).Perm (forestKeys hH'.roots) := by
              have h1 : (kL :: forestKeys hL'.roots).Perm
                  (kL :: forestKeys hH'.roots) := by
                refine hkpermL.symm.trans ?_
                refine (hsim.keys i hidead).trans ?_
                rw [hkeq]
                exact hkpermH'
              exact h1.cons_inv
            have hfe_sub : ∀ p, p ∈ forestEntries hH'.roots →
                p ∈ forestEntries (sH i).roots := by
              intro p hp
              exact hfepermH.symm.subset (List.mem_cons_of_mem _ hp)
            have hsim' : SimInv ctr dead (updf sL i hL') (updf sH i hH') := by
              refine ⟨?_, ?_, ?_, ?_, ?_, ?_⟩
              · intro j hj
                by_cases hji : j = i
                · rw [hji, updf_self]; exact hInvL'
                · rw [updf_ne _ hji]; exact hsim.invL j hj
              · intro j hj
                by_cases hji : j = i
                · rw [hji, updf_self]; exact hInvH'
                · rw [updf_ne _ hji]; exact hsim.invH j hj
              · intro j hj
                by_cases hji : j = i
                · rw [hji, updf_self, updf_self]; exact hkeys'
                · rw [updf_ne _ hji, updf_ne _ hji]; exact hsim.keys j hj
              · intro j p hp
                by_cases hji : j = i
                · rw [hji, updf_self] at hp
                  exact hsim.bound i p (hfe_sub p hp)
                · rw [updf_ne _ hji] at hp
                  exact hsim.bound j p hp
              · intro j
                by_cases hji : j = i
                · rw [hji, updf_self]
                  have hidsperm : ((forestEntries ((sH i).roots)).map Prod.fst).Perm
                      (i1 :: (forestEntries hH'.roots).map Prod.fst) := by
                    have := hfepermH.map Prod.fst
                    simpa using this
                  have := hidsperm.nodup_iff.mp (hsim.nodup i)
                  exact (List.nodup_cons.mp this).2
                · rw [updf_ne _ hji]
                  exact hsim.nodup j
              · intro j j' hjj x hx
                by_cases hji : j = i
                · rw [hji, updf_self] at hx
                  have hj'i : j' ≠ i := by rw [hji] at hjj; exact fun h => hjj h.symm
                  rw [updf_ne _ hj'i]
                  rcases List.mem_map.mp hx with ⟨p, hp, hpeq⟩
                  refine hsim.disj i j' (by rw [← hji]; exact hjj) x ?_
                  rw [← hpeq]
                  exact List.mem_map_of_mem _ (hfe_sub p hp)
                · rw [updf_ne _ hji] at hx
                  by_cases hj'i : j' = i
                  · rw [hj'i, updf_self]
                    intro hcon
                    rcases List.mem_map.mp hcon with ⟨p, hp, hpeq⟩
                    refine hsim.disj j i (by rw [← hj'i]; exact hjj) x hx ?_
                    rw [← hpeq]
                    exact List.mem_map_of_mem _ (hfe_sub p hp)
                  · rw [updf_ne _ hj'i]
                    exact hsim.disj j j' hjj x hx
            obtain ⟨t, hL, hH⟩ := ih dead ctr _ _ hlegal' hsim'
            refine ⟨some kL :: t, ?_, ?_⟩
            · simp only [runLazy, hextL, hL]
            · simp only [runMergeable, hextH, hH, hkeq]
      | merge i j =>
          have hlg : ((i ∉ dead ∧ j ∉ dead) ∧ ¬i = j) ∧
              legal ops (j :: dead) = true := by
            simpa [legal, Bool.and_eq_true] using hlegal
          obtain ⟨⟨⟨hidead, hjdead⟩, hij⟩, hlegal'⟩ := hlg
          obtain ⟨hInvLT, hrootsLT, _⟩ :=
            LazyBinomialHeap.merge_spec (hsim.invL i hidead) (hsim.invL j hjdead)
          obtain ⟨hInvHT, hrootsHT, _, hsrcH⟩ :=
            MergeableHeap.mh_merge_spec (hsim.invH i hidead) (hsim.invH j hjdead)
          have hfeHT : forestEntries ((MergeableHeap.merge (sH i) (sH j)).1.roots) =
              forestEntries ((sH i).roots) ++ forestEntries ((sH j).roots) := by
            rw [hrootsHT, forestEntries_append]
          have hfeHS : forestEntries ((MergeableHeap.merge (sH i) (sH j)).2.roots) =
              [] := by
            rw [hsrcH]
            rfl
          have hfeLS : (LazyBinomialHeap.merge (sL i) (sL j)).2.roots = [] := by
            rw [LazyBinomialHeap.merge_source]
          -- the updated pools
          have hgetT : ∀ {α : Type} (s : Nat → α) (t v : α),
              updf (updf s i t) j v i = t := by
            intro α s t v
            rw [updf_ne _ hij, updf_self]
          have hgetS : ∀ {α : Type} (s : Nat → α) (t v : α),
              updf (updf s i t) j v j = v := by
            intro α s t v
            rw [updf_self]
          have hgetO : ∀ {α : Type} (s : Nat → α) (t v : α) (l : Nat),
              l ≠ i → l ≠ j → updf (updf s i t) j v l = s l := by
            intro α s t v l hli hlj
            rw [updf_ne _ hlj, updf_ne _ hli]
          have hsim' : SimInv ctr (j :: dead)
              (updf (updf sL i (LazyBinomialHeap.merge (sL i) (sL j)).1) j
                (LazyBinomialHeap.merge (sL i) (sL j)).2)
              (updf (updf sH i (MergeableHeap.merge (sH i) (sH j)).1) j
                (MergeableHeap.merge (sH i) (sH j)).2) := by
            refine ⟨?_, ?_, ?_, ?_, ?_, ?_⟩
            · intro l hl
              have hlj : l ≠ j := fun h => hl (h ▸ List.mem_cons_self _ _)
              have hl' : l ∉ dead := fun h => hl (List.mem_cons_of_mem _ h)
              by_cases hli : l = i
              · rw [hli, hgetT]
                exact hInvLT
              · rw [hgetO _ _ _ l hli hlj]
                exact hsim.invL l hl'
            · intro l hl
              have hlj : l ≠ j := fun h => hl (h ▸ List.mem_cons_self _ _)
              have hl' : l ∉ dead := fun h => hl (List.mem_cons_of_mem _ h)
              by_cases hli : l = i
              · rw [hli, hgetT]
                exact hInvHT
              · rw [hgetO _ _ _ l hli hlj]
                exact hsim.invH l hl'
            · intro l hl
              have hlj : l ≠ j := fun h => hl (h ▸ List.mem_cons_self _ _)
              have hl' : l ∉ dead := fun h => hl (List.mem_cons_of_mem _ h)
              by_cases hli : l = i
              · rw [hli, hgetT, hgetT, hrootsLT, hrootsHT,
                  forestKeys_append, forestKeys_append]
                exact (hsim.keys i hidead).append (hsim.keys j hjdead)
              · rw [hgetO _ _ _ l hli hlj, hgetO _ _ _ l hli hlj]
                exact hsim.keys l hl'
            · intro l p hp
              by_cases hli : l = i
              · rw [hli, hgetT, hfeHT] at hp
                rcases List.mem_append.mp hp with h' | h'
                · exact hsim.bound i p h'
                · exact hsim.bound j p h'
              · by_cases hlj : l = j
                · rw [hlj, hgetS, hfeHS] at hp
                  simp at hp
                · rw [hgetO _ _ _ l hli hlj] at hp
                  exact hsim.bound l p hp
            · intro l
              by_cases hli : l = i
              · rw [hli, hgetT, hfeHT, List.map_append]
                exact List.Nodup.append (hsim.nodup i) (hsim.nodup j)
                  (hsim.disj i j hij)
              · by_cases hlj : l = j
                · rw [hlj, hgetS, hfeHS]
                  simp
                · rw [hgetO _ _ _ l hli hlj]
                  exact hsim.nodup l
            · intro l l' hll x hx
              by_cases hli : l = i
              · rw [hli, hgetT, hfeHT, List.map_append] at hx
                have hl'i : l' ≠ i := by rw [hli] at hll; exact fun h => hll h.symm
                by_cases hl'j : l' = j
                · rw [hl'j, hgetS, hfeHS]
                  simp
                · rw [hgetO _ _ _ l' hl'i hl'j]
                  rcases List.mem_append.mp hx with h' | h'
                  · exact hsim.disj i l' (fun h => hl'i h.symm) x h'
                  · exact hsim.disj j l' (fun h => hl'j h.symm) x h'
              · by_cases hlj : l = j
                · rw [hlj, hgetS, hfeHS] at hx
                  simp at hx
                · rw [hgetO _ _ _ l hli hlj] at hx
                  by_cases hl'i : l' = i
                  · rw [hl'i, hgetT, hfeHT, List.map_append]
                    intro hcon
                    rcases List.mem_append.mp hcon with h' | h'
                    · exact hsim.disj l i (fun h => hli h) x hx h'
                    · exact hsim.disj l j (fun h => hlj h) x hx h'
                  · by_cases hl'j : l' = j
                    · rw [hl'j, hgetS, hfeHS]
                      simp
                    · rw [hgetO _ _ _ l' hl'i hl'j]
                      exact hsim.disj l l' hll x hx
          obtain ⟨t, hL, hH⟩ := ih (j :: dead) ctr _ _ hlegal' hsim'
          exact ⟨t, by simpa [runLazy] using hL, by simpa [runMergeable] using hH⟩

/-- C9 (amended): for every sequence of `insert`, `minimum`, `extract_min`
and `merge` operations over integer keys that respects merge's ownership
transfer — no heap is used again after being merged away, and a merge's two
operands are distinct — the older backend (`heap.h`: head insertion,
conditional minimum rescan) and the current backend (`lazy.h`: tail
insertion, unconditional rescan) succeed and return identical values from
every `minimum` and `extract_min` call. -/
theorem backends_return_identical_values (ops : List Op)
    (hlegal : legal ops [] = true) :
    ∃ t, runLazy ops (fun _ => LazyBinomialHeap.empty) = some t ∧
      runMergeable ops 0 (fun _ => MergeableHeap.empty) = some t := by
  refine runs_agree ops [] 0 _ _ hlegal ?_
  refine ⟨?_, ?_, ?_, ?_, ?_, ?_⟩
  · intro i _
    exact LazyBinomialHeap.inv_empty
  · intro i _
    exact MergeableHeap.mh_inv_empty
  · intro i _
    exact List.Perm.refl _
  · intro i p hp
    simp [MergeableHeap.empty, forestEntries] at hp
  · intro i
    simp [MergeableHeap.empty, forestEntries]
  · intro i j _ x hx
    simp [MergeableHeap.empty, forestEntries] at hx

theorem backends_return_identical_values_witness :
    ∃ t, runLazy [Op.insert 0 5, Op.insert 0 3, Op.minimum 0,
        Op.extractMin 0, Op.merge 0 1, Op.extractMin 0, Op.extractMin 0]
        (fun _ => LazyBinomialHeap.empty) = some t ∧
      runMergeable [Op.insert 0 5, Op.insert 0 3, Op.minimum 0,
        Op.extractMin 0, Op.merge 0 1, Op.extractMin 0, Op.extractMin 0]
        0 (fun _ => MergeableHeap.empty) = some t :=
  backends_return_identical_values _ rfl

/-- C9 counterexample: with an unrestricted sequence that keeps using a
merged-away heap, the two backends diverge.  Merge away heap 1 (holding 5),
then insert 7 into it and ask for its minimum: the lazy backend's insert
sees `size == 0` and resets the cached minimum (reporting 7), while the
`heap.h` insert only compares against the stale cached minimum 5 — which 7
does not beat — and reports 5. -/
theorem backends_diverge_on_reused_source :
    runLazy [Op.insert 1 5, Op.merge 0 1, Op.insert 1 7, Op.minimum 1]
        (fun _ => LazyBinomialHeap.empty) = some [some 7] ∧
    runMergeable [Op.insert 1 5, Op.merge 0 1, Op.insert 1 7, Op.minimum 1]
        0 (fun _ => MergeableHeap.empty) = some [some 5] := by
  constructor <;> rfl

end Heap20407
